import Mathlib

set_option maxHeartbeats 1000000

/-!
Shallow embedding of the `advent-of-code-2025` Rust repository, together with
theorems settling the frozen claims about it.  Rust `isize`/`i64` values are
modelled by `Int` (no overflow occurs in the verified code paths), `u64`/`usize`
by `Nat`, and `u16` by `Nat` together with explicit `< 2 ^ 16` bounds.  Rust's
`%` and `/` on signed integers truncate towards zero, so they are modelled by
`Int.tmod` and `Int.tdiv`.
-/

namespace Aoc

/-- The shared `Part` enum from `src/lib.rs` (`Part::One` / `Part::Two`). -/
inductive Part where
  | One
  | Two
deriving DecidableEq, Repr

namespace Day01

/-- Rust `Direction` enum from `src/bin/day01.rs`. -/
inductive Direction where
  | Left
  | Right
deriving DecidableEq, Repr

/-- Rust `INITIAL_DIAL_POSITION` constant from `src/bin/day01.rs`. -/
def INITIAL_DIAL_POSITION : Int := 50

/-- Rust `DIAL_LENGTH` constant from `src/bin/day01.rs`. -/
def DIAL_LENGTH : Int := 100

/-- Rust `turn_dial` from `src/bin/day01.rs` (lines 69-83).  Returns
`(final_pos, zero_hits)`.  Rust's `%` on `isize` is `Int.tmod`, `/` is
`Int.tdiv`, and `.abs()` is `Int.natAbs`. -/
def turn_dial (start_pos : Int) (direction : Direction) (distance : Int) :
    Int × Int :=
  let raw_final_pos : Int :=
    match direction with
    | .Left => start_pos - distance
    | .Right => start_pos + distance
  let final_pos := (DIAL_LENGTH + raw_final_pos.tmod DIAL_LENGTH).tmod DIAL_LENGTH
  let base_hits : Int := ((raw_final_pos.tdiv DIAL_LENGTH).natAbs : Int)
  let zero_hits : Int :=
    if (start_pos > 0 ∧ raw_final_pos < 0) ∨ raw_final_pos = 0 then base_hits + 1
    else base_hits
  (final_pos, zero_hits)

/-- The loop body of `solve_day01` (lines 43-54 of `src/bin/day01.rs`): the
mutable state carried across rotations. -/
structure RunState where
  dial_position : Int
  final_pos_zero_hit_count : Int
  total_zero_hit_count : Int
deriving Repr

/-- One iteration of the `for rotation in rotations` loop of `solve_day01`.
Note that `dial_position == 0` is tested on the position *before* the update. -/
def run_step (s : RunState) (rotation : Direction × Int) : RunState :=
  let t := turn_dial s.dial_position rotation.1 rotation.2
  { dial_position := t.1
    final_pos_zero_hit_count :=
      s.final_pos_zero_hit_count + (if s.dial_position = 0 then 1 else 0)
    total_zero_hit_count := s.total_zero_hit_count + t.2 }

/-- The `solve_day01` loop run from an arbitrary starting position. -/
def run_from (start : Int) (rotations : List (Direction × Int)) : RunState :=
  rotations.foldl run_step ⟨start, 0, 0⟩

/-- The full `solve_day01` loop (always starts at `INITIAL_DIAL_POSITION`). -/
def run_rotations (rotations : List (Direction × Int)) : RunState :=
  run_from INITIAL_DIAL_POSITION rotations

/-- Rust `solve_day01` from `src/bin/day01.rs`, with the input already parsed into
`(direction, distance)` pairs. -/
def solve_day01 (rotations : List (Direction × Int)) (part : Part) : Int :=
  match part with
  | .One => (run_rotations rotations).final_pos_zero_hit_count
  | .Two => (run_rotations rotations).total_zero_hit_count

/-- Truncating remainder by 100 agrees with the Euclidean remainder up to a
shift of 100. -/
theorem tmod_hundred_cases (a : Int) :
    a.tmod 100 = a % 100 ∨ a.tmod 100 = a % 100 - 100 := by
  rcases le_or_lt 0 a with ha | ha
  · exact Or.inl (Int.tmod_eq_emod ha (by norm_num))
  · have hb : (0 : Int) ≤ -a := by omega
    have h1 : (-a).tmod 100 = (-a) % 100 := Int.tmod_eq_emod hb (by norm_num)
    have h6 : (-a).tdiv 100 = -(a.tdiv 100) := Int.neg_tdiv a 100
    have hd1 := Int.tmod_add_tdiv a 100
    have hd2 := Int.tmod_add_tdiv (-a) 100
    omega

/-- The normalisation `(100 + raw % 100) % 100` of `turn_dial` lands in
`[0, 100)` and is congruent to `raw` modulo 100. -/
theorem turn_dial_final_pos_spec (raw : Int) :
    0 ≤ (DIAL_LENGTH + raw.tmod DIAL_LENGTH).tmod DIAL_LENGTH ∧
      (DIAL_LENGTH + raw.tmod DIAL_LENGTH).tmod DIAL_LENGTH < 100 ∧
      (DIAL_LENGTH + raw.tmod DIAL_LENGTH).tmod DIAL_LENGTH % 100 = raw % 100 := by
  have h1 := tmod_hundred_cases raw
  have h2 : 0 ≤ raw % 100 ∧ raw % 100 < 100 := ⟨Int.emod_nonneg raw (by norm_num),
    Int.emod_lt_of_pos raw (by norm_num)⟩
  have h3 : (0 : Int) ≤ 100 + raw.tmod 100 := by simp [DIAL_LENGTH] at *; omega
  have h4 : (100 + raw.tmod 100).tmod 100 = (100 + raw.tmod 100) % 100 :=
    Int.tmod_eq_emod h3 (by norm_num)
  simp only [DIAL_LENGTH] at *
  rw [h4]
  have h5 : 0 ≤ (100 + raw.tmod 100) % 100 ∧ (100 + raw.tmod 100) % 100 < 100 :=
    ⟨Int.emod_nonneg _ (by norm_num), Int.emod_lt_of_pos _ (by norm_num)⟩
  refine ⟨h5.1, h5.2, ?_⟩
  rcases h1 with h | h
  · rw [h]
    omega
  · rw [h]
    have : (100 + (raw % 100 - 100)) = raw % 100 := by ring
    rw [this]
    omega

/-- Helper: unfolding of `turn_dial`'s final position. -/
theorem turn_dial_fst_left (p d : Int) :
    (turn_dial p .Left d).1 = (DIAL_LENGTH + (p - d).tmod DIAL_LENGTH).tmod DIAL_LENGTH := rfl

/-- Helper: unfolding of `turn_dial`'s final position. -/
theorem turn_dial_fst_right (p d : Int) :
    (turn_dial p .Right d).1 = (DIAL_LENGTH + (p + d).tmod DIAL_LENGTH).tmod DIAL_LENGTH := rfl

/-- C5: turning the dial `Left` by `d` from `p ∈ [0, 100)` and then `Right` by
`d` returns to `p`; the run's total zero-hit count is the sum of the two
turns' counts; and from position `0`, a turn by a positive multiple of 100 in
either direction returns `(0, d / 100)` — one hit per full revolution. -/
theorem turn_dial_roundtrip_and_boundary (p d : Int)
    (hp0 : 0 ≤ p) (hp1 : p < 100) (hd : 0 ≤ d) :
    (turn_dial (turn_dial p .Left d).1 .Right d).1 = p
    ∧ (run_from p [(.Left, d), (.Right, d)]).total_zero_hit_count
        = (turn_dial p .Left d).2 + (turn_dial (turn_dial p .Left d).1 .Right d).2
    ∧ (∀ e : Int, 0 < e → 100 ∣ e →
        turn_dial 0 .Left e = (0, e / 100) ∧ turn_dial 0 .Right e = (0, e / 100)) := by
  refine ⟨?_, ?_, ?_⟩
  · rw [turn_dial_fst_left, turn_dial_fst_right]
    obtain ⟨ha1, ha2, ha3⟩ := turn_dial_final_pos_spec (p - d)
    set f1 := (DIAL_LENGTH + (p - d).tmod DIAL_LENGTH).tmod DIAL_LENGTH with hf1
    obtain ⟨hb1, hb2, hb3⟩ := turn_dial_final_pos_spec (f1 + d)
    omega
  · simp [run_from, run_step]
  · rintro e he ⟨k, rfl⟩
    have hk : 0 < k := by omega
    have htm : (0 - 100 * k).tmod 100 = 0 := by
      apply Int.tmod_eq_zero_of_dvd
      exact ⟨-k, by ring⟩
    have htm2 : (0 + 100 * k).tmod 100 = 0 := by
      apply Int.tmod_eq_zero_of_dvd
      exact ⟨k, by ring⟩
    have htd : (0 - 100 * k).tdiv 100 = -k := by
      have h1 : (0 - 100 * k) = -(100 * k) := by ring
      rw [h1, Int.neg_tdiv, Int.mul_tdiv_cancel_left k (by norm_num)]
    have htd2 : (0 + 100 * k).tdiv 100 = k := by
      have h1 : (0 + 100 * k) = 100 * k := by ring
      rw [h1, Int.mul_tdiv_cancel_left k (by norm_num)]
    have hq : (100 * k) / 100 = k := Int.mul_ediv_cancel_left k (by norm_num)
    have habs : ((-k).natAbs : Int) = k := by
      rw [show (-k).natAbs = k.natAbs from Int.natAbs_neg k, Int.natAbs_of_nonneg (by omega)]
    have habs2 : ((k).natAbs : Int) = k := Int.natAbs_of_nonneg (by omega)
    constructor
    · show ((DIAL_LENGTH + (0 - 100 * k).tmod DIAL_LENGTH).tmod DIAL_LENGTH,
        if ((0 : Int) > 0 ∧ (0 - 100 * k : Int) < 0) ∨ (0 - 100 * k : Int) = 0
        then (((0 - 100 * k).tdiv DIAL_LENGTH).natAbs : Int) + 1
        else (((0 - 100 * k).tdiv DIAL_LENGTH).natAbs : Int)) = (0, 100 * k / 100)
      rw [if_neg (by omega)]
      simp only [DIAL_LENGTH]
      rw [hq, htm, htd, habs]
      show ((100 + (0 : Int)).tmod 100, k) = (0, k)
      norm_num
    · show ((DIAL_LENGTH + (0 + 100 * k).tmod DIAL_LENGTH).tmod DIAL_LENGTH,
        if ((0 : Int) > 0 ∧ (0 + 100 * k : Int) < 0) ∨ (0 + 100 * k : Int) = 0
        then (((0 + 100 * k).tdiv DIAL_LENGTH).natAbs : Int) + 1
        else (((0 + 100 * k).tdiv DIAL_LENGTH).natAbs : Int)) = (0, 100 * k / 100)
      rw [if_neg (by omega)]
      simp only [DIAL_LENGTH]
      rw [hq, htm2, htd2, habs2]
      show ((100 + (0 : Int)).tmod 100, k) = (0, k)
      norm_num

/-- Witness for `turn_dial_roundtrip_and_boundary` at `p = 7`, `d = 250`. -/
theorem turn_dial_roundtrip_and_boundary_witness :
    (0 : Int) ≤ 7 ∧ (7 : Int) < 100 ∧ (0 : Int) ≤ 250 ∧
      ((turn_dial (turn_dial 7 .Left 250).1 .Right 250).1 = 7
      ∧ (run_from 7 [(.Left, 250), (.Right, 250)]).total_zero_hit_count
          = (turn_dial 7 .Left 250).2 + (turn_dial (turn_dial 7 .Left 250).1 .Right 250).2
      ∧ (∀ e : Int, 0 < e → 100 ∣ e →
          turn_dial 0 .Left e = (0, e / 100) ∧ turn_dial 0 .Right e = (0, e / 100))) :=
  ⟨by norm_num, by norm_num, by norm_num,
    turn_dial_roundtrip_and_boundary 7 250 (by norm_num) (by norm_num) (by norm_num)⟩

/-- Helper: running one more rotation at the end. -/
theorem run_from_concat (start : Int) (l : List (Direction × Int)) (r : Direction × Int) :
    run_from start (l ++ [r]) = run_step (run_from start l) r := by
  simp [run_from, List.foldl_concat]

/-- Helper: the Part-One counter counts exactly the loop iterations whose
pre-update dial position is zero. -/
theorem run_from_count_eq (start : Int) (l : List (Direction × Int)) :
    (run_from start l).final_pos_zero_hit_count =
      (((List.range l.length).filter
        (fun i => (run_from start (l.take i)).dial_position = 0)).length : Int) := by
  induction l using List.reverseRecOn with
  | nil => simp [run_from]
  | append_singleton l r ih =>
    rw [run_from_concat]
    have hlen : (l ++ [r]).length = l.length + 1 := by simp
    rw [hlen, List.range_succ, List.filter_append]
    have htake : ∀ i ∈ List.range l.length,
        ((l ++ [r]).take i) = l.take i := by
      intro i hi
      rw [List.mem_range] at hi
      exact List.take_append_of_le_length (by omega)
    have hfilter : (List.range l.length).filter
          (fun i => decide ((run_from start ((l ++ [r]).take i)).dial_position = 0))
        = (List.range l.length).filter
          (fun i => decide ((run_from start (l.take i)).dial_position = 0)) := by
      apply List.filter_congr
      intro i hi
      rw [htake i hi]
    have hlast : ((l ++ [r]).take l.length) = l := List.take_left l [r]
    simp only [List.filter, hlast]
    rw [hfilter]
    by_cases hz : (run_from start l).dial_position = 0
    · simp [run_step, hz, ih]
    · simp [run_step, hz, ih]

/-- C10 (implicit): `solve_day01` Part One counts an iteration exactly when the
dial position at the START of that rotation is zero; equivalently (because the
initial position is 50 ≠ 0) it counts the rotations among the first
`n - 1` whose END position is zero — the final rotation's end position is
never counted. -/
theorem solve_day01_part_one_counts_start_zero (rotations : List (Direction × Int)) :
    solve_day01 rotations .One =
      (((List.range rotations.length).filter
        (fun i => (run_rotations (rotations.take i)).dial_position = 0)).length : Int)
    ∧ solve_day01 rotations .One =
      (((List.range (rotations.length - 1)).filter
        (fun j => (run_rotations (rotations.take (j + 1))).dial_position = 0)).length : Int) := by
  have hmain : solve_day01 rotations .One =
      (((List.range rotations.length).filter
        (fun i => (run_rotations (rotations.take i)).dial_position = 0)).length : Int) := by
    show (run_rotations rotations).final_pos_zero_hit_count = _
    rw [run_rotations]
    rw [run_from_count_eq]
    simp [run_rotations]
  refine ⟨hmain, ?_⟩
  rw [hmain]
  rcases rotations with _ | ⟨r, rs⟩
  · simp
  · have hlen : (r :: rs).length = rs.length + 1 := by simp
    rw [hlen, List.range_succ_eq_map]
    have h0 : (run_rotations ((r :: rs).take 0)).dial_position = 50 := by
      simp [run_rotations, run_from, INITIAL_DIAL_POSITION]
    rw [List.filter_cons]
    simp only [h0]
    norm_num
    rw [List.filter_map, List.length_map]
    congr 1

end Day01

/-- Rust `Coords3D` from `src/coords/coords_3d.rs`: an immutable triple of `i64`
with derived (component-wise) equality and hashing. -/
structure Coords3D where
  x : Int
  y : Int
  z : Int
deriving DecidableEq, Repr

namespace Line

/-- Rust `Line3D` from `src/line.rs`: an undirected line between two `Coords3D`.
The Rust type is a tuple struct `Line3D(pub Coords3D, pub Coords3D)`. -/
structure Line3D where
  fst : Coords3D
  snd : Coords3D
deriving DecidableEq, Repr

/-- The custom `impl PartialEq for Line3D` from `src/line.rs` (lines 37-43):
`self.0 == other.0 && self.1 == other.1 || self.0 == other.1 && self.1 == other.0`. -/
def line3D_eq (a b : Line3D) : Bool :=
  (a.fst = b.fst ∧ a.snd = b.snd) ∨ (a.fst = b.snd ∧ a.snd = b.fst)

/-- The `impl Hash for Line3D` from `src/line.rs` (lines 45-59): the ordered
pair `(min, max)` that is fed to the hasher, canonicalised by the
lexicographic comparison on `(x, y, z)` used in the source.  Two `Line3D`
values produce identical hash values exactly when this pair coincides, since
the hasher consumes only this pair. -/
def line3D_hash_pair (l : Line3D) : Coords3D × Coords3D :=
  if l.fst.x < l.snd.x
      ∨ (l.fst.x = l.snd.x ∧ l.fst.y < l.snd.y)
      ∨ (l.fst.x = l.snd.x ∧ l.fst.y = l.snd.y ∧ l.fst.z < l.snd.z) then
    (l.fst, l.snd)
  else
    (l.snd, l.fst)

/-- C8: `Line3D` equality is symmetric in the endpoints, and the hash input is
identical for `Line3D(A, B)` and `Line3D(B, A)`, so the hash values agree
regardless of endpoint order. -/
theorem line3D_eq_hash_symmetric (A B : Coords3D) :
    line3D_eq ⟨A, B⟩ ⟨B, A⟩ = true
    ∧ line3D_hash_pair ⟨A, B⟩ = line3D_hash_pair ⟨B, A⟩ := by
  constructor
  · simp [line3D_eq]
  · by_cases hAB : A.x < B.x ∨ (A.x = B.x ∧ A.y < B.y) ∨ (A.x = B.x ∧ A.y = B.y ∧ A.z < B.z)
    · have hBA : ¬(B.x < A.x ∨ (B.x = A.x ∧ B.y < A.y) ∨ (B.x = A.x ∧ B.y = A.y ∧ B.z < A.z)) := by
        omega
      rw [line3D_hash_pair, line3D_hash_pair, if_pos hAB, if_neg hBA]
    · by_cases hBA : B.x < A.x ∨ (B.x = A.x ∧ B.y < A.y) ∨ (B.x = A.x ∧ B.y = A.y ∧ B.z < A.z)
      · rw [line3D_hash_pair, line3D_hash_pair, if_neg hAB, if_pos hBA]
      · have hEq : A = B := by
          rcases A with ⟨ax, ay, az⟩
          rcases B with ⟨bx, by_, bz⟩
          simp only [Coords3D.mk.injEq]
          simp only [not_or, not_and, not_lt] at hAB hBA
          omega
        subst hEq
        rfl

end Line

namespace Day02

/-- The decimal digit string of a natural number (most significant digit
first), as produced by Rust's `number.to_string()`; digits are modelled by
their numeric values. -/
def decimalDigits (n : Nat) : List Nat :=
  if h : n < 10 then [n]
  else
    have : n / 10 < n := Nat.div_lt_self (by omega) (by norm_num)
    decimalDigits (n / 10) ++ [n % 10]

/-- Rust `is_invalid_part_two` from `src/bin/day02.rs` (lines 51-72): flags a
number whose decimal string consists of a pattern repeated at least twice. -/
def is_invalid_part_two (number : Nat) : Bool :=
  if number / 10 = 0 then false
  else
    let number_str := decimalDigits number
    let num_digits := number_str.length
    (List.range' 1 ((num_digits + 1) / 2)).any fun pattern_len =>
      let rest_len := num_digits - pattern_len
      if rest_len % pattern_len ≠ 0 then false
      else
        let pattern := number_str.take pattern_len
        (List.range (rest_len / pattern_len)).all fun round =>
          let start_index := pattern_len + pattern_len * round
          decide (pattern = (number_str.drop start_index).take pattern_len)

/-- The specification predicate: the decimal string can be partitioned into
`k ≥ 2` contiguous, character-identical blocks of equal length with no
remainder. -/
def RepeatedBlocks (n : Nat) : Prop :=
  ∃ (b : List Nat) (k : Nat), 2 ≤ k ∧ decimalDigits n = (List.replicate k b).flatten

theorem decimalDigits_ne_nil (n : Nat) : decimalDigits n ≠ [] := by
  rw [decimalDigits]
  split
  · simp
  · simp

theorem decimalDigits_small {n : Nat} (h : n < 10) : decimalDigits n = [n] := by
  rw [decimalDigits, dif_pos h]

theorem decimalDigits_length_ge_two {n : Nat} (h : 10 ≤ n) :
    2 ≤ (decimalDigits n).length := by
  rw [decimalDigits, dif_neg (by omega)]
  have h1 := decimalDigits_ne_nil (n / 10)
  have h2 : 1 ≤ (decimalDigits (n / 10)).length := List.length_pos.mpr h1
  simp only [List.length_append, List.length_cons, List.length_nil]
  omega

theorem join_replicate_length (k : Nat) (b : List Nat) :
    ((List.replicate k b).flatten).length = k * b.length := by
  induction k with
  | zero => simp
  | succ k ih => simp [List.replicate_succ, ih, Nat.succ_mul]; omega

theorem join_replicate_drop (k : Nat) (b : List Nat) :
    ((List.replicate (k + 1) b).flatten).drop b.length = (List.replicate k b).flatten := by
  rw [List.replicate_succ, List.flatten_cons, List.drop_append_of_le_length (le_refl _)]
  simp

theorem join_replicate_take {k : Nat} (hk : 1 ≤ k) (b : List Nat) :
    ((List.replicate k b).flatten).take b.length = b := by
  obtain ⟨k', rfl⟩ : ∃ k', k = k' + 1 := ⟨k - 1, by omega⟩
  rw [List.replicate_succ, List.flatten_cons, List.take_append_of_le_length (le_refl _)]
  simp

/-- If every length-`p` block of `s` equals the first one, then `s` is the
`k`-fold repetition of its first block. -/
theorem eq_join_replicate_of_blocks (p : Nat) (hp : 1 ≤ p) :
    ∀ (k : Nat) (s : List Nat), s.length = p * k →
      (∀ i < k, (s.drop (p * i)).take p = s.take p) →
      s = (List.replicate k (s.take p)).flatten := by
  intro k
  induction k with
  | zero =>
    intro s hlen _
    simp at hlen
    simp [hlen]
  | succ k ih =>
    intro s hlen hblocks
    have hsp : p ≤ s.length := by
      rw [hlen]
      calc p = p * 1 := by ring
      _ ≤ p * (k + 1) := Nat.mul_le_mul_left p (by omega)
    have hdroplen : (s.drop p).length = p * k := by
      rw [List.length_drop, hlen]
      ring_nf
      omega
    have hdroptake : ∀ i < k, ((s.drop p).drop (p * i)).take p = (s.drop p).take p := by
      intro i hi
      rw [List.drop_drop]
      have e1 : p + p * i = p * (i + 1) := by ring
      rw [e1, hblocks (i + 1) (by omega)]
      have hb2 := hblocks 1 (by omega)
      rw [Nat.mul_one] at hb2
      rw [hb2]
    have ihs := ih (s.drop p) hdroplen hdroptake
    rw [List.replicate_succ, List.flatten_cons]
    conv_lhs => rw [← List.take_append_drop p s]
    congr 1
    rcases Nat.eq_zero_or_pos k with hk0 | hk0
    · subst hk0
      simp at ihs ⊢
      exact ihs
    · have hb2 := hblocks 1 (by omega)
      rw [Nat.mul_one] at hb2
      rw [← hb2]
      exact ihs

/-- C7: `is_invalid_part_two` decides exactly the repeated-blocks predicate:
`true` iff the decimal string of `n` can be partitioned into at least two
equal-length, character-identical contiguous blocks with no remainder. -/
theorem is_invalid_part_two_iff (n : Nat) :
    is_invalid_part_two n = true ↔ RepeatedBlocks n := by
  constructor
  · intro hcode
    rw [is_invalid_part_two] at hcode
    split at hcode
    · exact absurd hcode (by simp)
    · rename_i hge
      have hn10 : 10 ≤ n := by omega
      simp only [List.any_eq_true] at hcode
      obtain ⟨p, hpmem, hp⟩ := hcode
      rw [List.mem_range'] at hpmem
      obtain ⟨hp1, hp2⟩ := hpmem
      set s := decimalDigits n with hs
      set L := s.length with hL
      have hL2 : 2 ≤ L := decimalDigits_length_ge_two hn10
      split at hp
      · exact absurd hp (by simp)
      · rename_i hdvd
        simp only [ne_eq, Decidable.not_not] at hdvd
        simp only [List.all_eq_true, List.mem_range, decide_eq_true_eq] at hp
        have hp1' : 1 ≤ p := by omega
        have hple : p ≤ L := by omega
        have hrest : (L - p) % p = 0 := hdvd
        set k := (L - p) / p + 1 with hk
        have hLk : L = p * k := by
          have := Nat.div_add_mod (L - p) p
          rw [hrest] at this
          have h2 : p * ((L - p) / p) = L - p := by omega
          rw [hk]
          rw [Nat.mul_add, h2]
          omega
        have hkge : 2 ≤ k := by
          rcases Nat.lt_or_ge L (p * 2) with hlt | hge2
          · exfalso
            have : k = 1 := by nlinarith [hLk]
            rw [this] at hLk
            omega
          · by_contra hcon
            have hk1 : k ≤ 1 := by omega
            have : L ≤ p := by
              calc L = p * k := hLk
              _ ≤ p * 1 := Nat.mul_le_mul_left p hk1
              _ = p := by ring
            omega
        have hblocks : ∀ i < k, (s.drop (p * i)).take p = s.take p := by
          intro i hi
          rcases Nat.eq_zero_or_pos i with hi0 | hi0
          · subst hi0
            simp
          · have hround := hp (i - 1) (by omega)
            have e1 : p + p * (i - 1) = p * i := by
              obtain ⟨j, rfl⟩ : ∃ j, i = j + 1 := ⟨i - 1, by omega⟩
              simp only [Nat.add_sub_cancel]
              ring
            rw [e1] at hround
            exact hround.symm
        have := eq_join_replicate_of_blocks p hp1' k s hLk hblocks
        exact ⟨s.take p, k, hkge, this⟩
  · rintro ⟨b, k, hk2, hrep⟩
    set s := decimalDigits n with hs
    have hsne : s ≠ [] := decimalDigits_ne_nil n
    have hbne : b ≠ [] := by
      rintro rfl
      simp at hrep
      exact hsne hrep
    have hblen : 1 ≤ b.length := List.length_pos.mpr hbne
    have hLlen : s.length = k * b.length := by rw [hrep, join_replicate_length]
    have hL2 : 2 ≤ s.length := by
      calc 2 = 2 * 1 := by ring
      _ ≤ k * b.length := Nat.mul_le_mul hk2 hblen
      _ = s.length := hLlen.symm
    have hn10 : 10 ≤ n := by
      by_contra hcon
      have : s = [n] := decimalDigits_small (by omega)
      rw [this] at hL2
      simp at hL2
    rw [is_invalid_part_two, if_neg (by omega)]
    simp only [List.any_eq_true]
    rw [← hs]
    refine ⟨b.length, ?_, ?_⟩
    · rw [List.mem_range'_1]
      refine ⟨hblen, ?_⟩
      have h2b : 2 * b.length ≤ k * b.length := Nat.mul_le_mul_right b.length hk2
      omega
    · have hrest : s.length - b.length = (k - 1) * b.length := by
        obtain ⟨j, rfl⟩ : ∃ j, k = j + 1 := ⟨k - 1, by omega⟩
        rw [hLlen]
        simp only [Nat.add_sub_cancel]
        rw [Nat.succ_mul]
        omega
      rw [if_neg]
      · simp only [List.all_eq_true, List.mem_range, decide_eq_true_eq]
        intro r hr
        have hrk : r + 1 < k := by
          rw [hrest] at hr
          have hdiv : (k - 1) * b.length / b.length = k - 1 := by
            rw [Nat.mul_div_cancel _ (by omega)]
          rw [hdiv] at hr
          omega
        have htake : s.take b.length = b := by
          rw [hrep]
          exact join_replicate_take (by omega) b
        have hdropdrop : ∀ j ≤ k, s.drop (b.length * j) = (List.replicate (k - j) b).flatten := by
          intro j
          induction j with
          | zero => intro _; simp [hrep]
          | succ i ihj =>
            intro hik
            have hdi := ihj (by omega)
            have e1 : b.length * (i + 1) = b.length * i + b.length := by ring
            rw [e1, ← List.drop_drop, hdi]
            have e2 : k - i = (k - (i + 1)) + 1 := by omega
            rw [e2]
            exact join_replicate_drop _ b
        have e3 : b.length + b.length * r = b.length * (r + 1) := by ring
        rw [htake, e3, hdropdrop (r + 1) (by omega)]
        rw [join_replicate_take (by omega) b]
      · simp only [ne_eq, Decidable.not_not]
        rw [hrest]
        exact Nat.mul_mod_left _ _

end Day02

namespace Day05

/-- A Rust `RangeInclusive<u64>` `start..=end`, modelled as `(start, end)`. -/
abbrev URange := Nat × Nat

/-- One step of the fold in `sort_and_merge_ranges` (`src/bin/day05.rs`,
lines 68-76): if the incoming range overlaps the last output range, extend the
last output range, otherwise push the incoming range. -/
def merge_step (output : List URange) (range : URange) : List URange :=
  match output.getLast? with
  | some last_range =>
    if range.1 ≤ last_range.2 then
      output.dropLast ++ [(last_range.1, max range.2 last_range.2)]
    else output ++ [range]
  | none => output ++ [range]

/-- Rust `sort_and_merge_ranges` from `src/bin/day05.rs` (lines 64-77): stable sort
by the range start, then fold with `merge_step` starting from an empty output. -/
def sort_and_merge_ranges (input : List URange) : List URange :=
  (input.mergeSort (fun a b => a.1 ≤ b.1)).foldl merge_step []

/-- Recursive presentation of the fold, tracking the current last output
range separately. -/
def merge_run (last_range : URange) (rest : List URange) : List URange :=
  match rest with
  | [] => [last_range]
  | r :: rs =>
    if r.1 ≤ last_range.2 then merge_run (last_range.1, max r.2 last_range.2) rs
    else last_range :: merge_run r rs

theorem foldl_merge_step_eq (l : List URange) :
    ∀ (out : List URange) (last_range : URange),
      l.foldl merge_step (out ++ [last_range]) = out ++ merge_run last_range l := by
  induction l with
  | nil => intro out last_range; simp [merge_run]
  | cons r rs ih =>
    intro out last_range
    rw [List.foldl_cons]
    have hstep : merge_step (out ++ [last_range]) r =
        if r.1 ≤ last_range.2 then out ++ [(last_range.1, max r.2 last_range.2)]
        else (out ++ [last_range]) ++ [r] := by
      simp only [merge_step, List.getLast?_concat]
      split
      · rw [List.dropLast_concat]
      · rfl
    rw [hstep, merge_run]
    split
    · rw [ih]
    · rw [ih, List.append_assoc, List.singleton_append]

theorem sort_and_merge_ranges_eq_merge_run {input : List URange} {r : URange}
    {rs : List URange} (h : input.mergeSort (fun a b => a.1 ≤ b.1) = r :: rs) :
    sort_and_merge_ranges input = merge_run r rs := by
  rw [sort_and_merge_ranges, h, List.foldl_cons]
  have h0 : merge_step [] r = [] ++ [r] := rfl
  rw [h0, foldl_merge_step_eq, List.nil_append]

/-- Main invariant lemma for `merge_run`: starts are bounded below, output
ranges are well-formed and strictly ordered-disjoint, and the covered integer
set is exactly the union of the inputs' covered sets. -/
theorem merge_run_spec :
    ∀ (rest : List URange) (last_range : URange),
      last_range.1 ≤ last_range.2 →
      (∀ r ∈ rest, r.1 ≤ r.2) →
      (∀ r ∈ rest, last_range.1 ≤ r.1) →
      List.Pairwise (fun a b : URange => a.1 ≤ b.1) rest →
      (∀ x ∈ merge_run last_range rest, last_range.1 ≤ x.1 ∧ x.1 ≤ x.2)
      ∧ List.Pairwise (fun a b : URange => a.2 < b.1) (merge_run last_range rest)
      ∧ ∀ z : Nat, (∃ x ∈ merge_run last_range rest, x.1 ≤ z ∧ z ≤ x.2) ↔
          ((last_range.1 ≤ z ∧ z ≤ last_range.2) ∨ ∃ r ∈ rest, r.1 ≤ z ∧ z ≤ r.2) := by
  intro rest
  induction rest with
  | nil =>
    intro last_range hwf _ _ _
    refine ⟨?_, ?_, ?_⟩
    · intro x hx
      rw [merge_run] at hx
      simp at hx
      subst hx
      exact ⟨le_refl _, hwf⟩
    · rw [merge_run]
      simp
    · intro z
      rw [merge_run]
      simp
  | cons r rs ih =>
    intro last_range hlwf hwf hstart hpair
    have hrwf : r.1 ≤ r.2 := hwf r (by simp)
    have hrswf : ∀ x ∈ rs, x.1 ≤ x.2 := fun x hx => hwf x (by simp [hx])
    have hlr : last_range.1 ≤ r.1 := hstart r (by simp)
    have hpair' := (List.pairwise_cons.mp hpair)
    rw [merge_run]
    split
    · rename_i hoverlap
      have hmerged := ih (last_range.1, max r.2 last_range.2)
        (le_trans hlwf (le_max_right _ _)) hrswf
        (fun x hx => le_trans hlr (hpair'.1 x hx)) hpair'.2
      refine ⟨hmerged.1, hmerged.2.1, ?_⟩
      intro z
      rw [hmerged.2.2 z]
      constructor
      · rintro (hin | hin)
        · simp only [] at hin
          rcases le_or_lt z last_range.2 with hz | hz
          · exact Or.inl ⟨hin.1, hz⟩
          · refine Or.inr ⟨r, by simp, ?_, ?_⟩
            · omega
            · rcases max_cases r.2 last_range.2 with ⟨hm, _⟩ | ⟨hm, _⟩ <;> omega
        · obtain ⟨x, hx, hxz⟩ := hin
          exact Or.inr ⟨x, by simp [hx], hxz⟩
      · rintro (hin | ⟨x, hx, hxz⟩)
        · exact Or.inl ⟨hin.1, le_trans hin.2 (le_max_right _ _)⟩
        · rcases List.mem_cons.mp hx with rfl | hx'
          · exact Or.inl ⟨by simp only []; omega, by simp only []; exact le_trans hxz.2 (le_max_left _ _)⟩
          · exact Or.inr ⟨x, hx', hxz⟩
    · rename_i hnover
      have hnover' : last_range.2 < r.1 := by omega
      have hrec := ih r hrwf hrswf hpair'.1 hpair'.2
      refine ⟨?_, ?_, ?_⟩
      · intro x hx
        rcases List.mem_cons.mp hx with rfl | hx'
        · exact ⟨le_refl _, hlwf⟩
        · have := hrec.1 x hx'
          exact ⟨le_trans hlr this.1, this.2⟩
      · rw [List.pairwise_cons]
        refine ⟨?_, hrec.2.1⟩
        intro x hx
        have := hrec.1 x hx
        omega
      · intro z
        simp only [List.mem_cons]
        constructor
        · rintro ⟨x, hx | hx', hxz⟩
          · subst hx
            exact Or.inl hxz
          · rcases (hrec.2.2 z).mp ⟨x, hx', hxz⟩ with h | ⟨y, hy, hyz⟩
            · exact Or.inr ⟨r, Or.inl rfl, h⟩
            · exact Or.inr ⟨y, Or.inr hy, hyz⟩
        · rintro (hz | ⟨y, rfl | hy, hyz⟩)
          · exact ⟨last_range, Or.inl rfl, hz⟩
          · obtain ⟨x, hx, hxz⟩ := (hrec.2.2 z).mpr (Or.inl hyz)
            exact ⟨x, Or.inr hx, hxz⟩
          · obtain ⟨x, hx, hxz⟩ := (hrec.2.2 z).mpr (Or.inr ⟨y, hy, hyz⟩)
            exact ⟨x, Or.inr hx, hxz⟩

/-- C3: on well-formed inputs, `sort_and_merge_ranges` produces a list that is
sorted in ascending order of range start, pairwise non-overlapping (each range
ends strictly before the next starts), and covers exactly the same set of
integers as the union of the input ranges. -/
theorem sort_and_merge_ranges_correct (input : List URange)
    (hwf : ∀ r ∈ input, r.1 ≤ r.2) :
    List.Pairwise (fun a b : URange => a.1 ≤ b.1) (sort_and_merge_ranges input)
    ∧ List.Pairwise (fun a b : URange => a.2 < b.1) (sort_and_merge_ranges input)
    ∧ ∀ z : Nat, (∃ x ∈ sort_and_merge_ranges input, x.1 ≤ z ∧ z ≤ x.2) ↔
        ∃ r ∈ input, r.1 ≤ z ∧ z ≤ r.2 := by
  have htrans : ∀ a b c : URange, decide (a.1 ≤ b.1) = true →
      decide (b.1 ≤ c.1) = true → decide (a.1 ≤ c.1) = true := by
    intro a b c hab hbc
    simp only [decide_eq_true_eq] at *
    omega
  have htotal : ∀ a b : URange, (decide (a.1 ≤ b.1) || decide (b.1 ≤ a.1)) = true := by
    intro a b
    simp only [Bool.or_eq_true, decide_eq_true_eq]
    omega
  have hsorted := List.sorted_mergeSort htrans htotal input
  have hperm := List.mergeSort_perm input (fun a b => decide (a.1 ≤ b.1))
  cases hms : input.mergeSort (fun a b => decide (a.1 ≤ b.1)) with
  | nil =>
    have hinput : input = [] := by
      rw [hms] at hperm
      exact hperm.symm.eq_nil
    subst hinput
    refine ⟨?_, ?_, ?_⟩ <;> simp [sort_and_merge_ranges]
  | cons r rs =>
    have heq := sort_and_merge_ranges_eq_merge_run hms
    rw [hms] at hsorted hperm
    obtain ⟨hp1, hp2⟩ := List.pairwise_cons.mp hsorted
    have hwf' : ∀ x ∈ r :: rs, x.1 ≤ x.2 := fun x hx => hwf x (hperm.subset hx)
    have hspec := merge_run_spec rs r (hwf' r (by simp))
      (fun x hx => hwf' x (by simp [hx]))
      (fun x hx => by have := hp1 x hx; simpa using this)
      (hp2.imp (fun h => by simpa using h))
    rw [heq]
    refine ⟨?_, hspec.2.1, ?_⟩
    · exact List.Pairwise.imp_of_mem
        (fun ha hb hab => le_trans (hspec.1 _ ha).2 (le_of_lt hab)) hspec.2.1
    · intro z
      rw [hspec.2.2 z]
      constructor
      · rintro (h | ⟨x, hx, hxz⟩)
        · exact ⟨r, hperm.subset (by simp), h⟩
        · exact ⟨x, hperm.subset (by simp [hx]), hxz⟩
      · rintro ⟨x, hx, hxz⟩
        rcases List.mem_cons.mp (hperm.mem_iff.mpr hx) with rfl | hx''
        · exact Or.inl hxz
        · exact Or.inr ⟨x, hx'', hxz⟩

/-- Witness for `sort_and_merge_ranges_correct` at a concrete input. -/
theorem sort_and_merge_ranges_correct_witness :
    (∀ r ∈ [((1 : Nat), (5 : Nat)), (12, 16), (8, 10)], r.1 ≤ r.2) ∧
      (List.Pairwise (fun a b : URange => a.1 ≤ b.1)
          (sort_and_merge_ranges [(1, 5), (12, 16), (8, 10)])
      ∧ List.Pairwise (fun a b : URange => a.2 < b.1)
          (sort_and_merge_ranges [(1, 5), (12, 16), (8, 10)])
      ∧ ∀ z : Nat, (∃ x ∈ sort_and_merge_ranges [(1, 5), (12, 16), (8, 10)],
            x.1 ≤ z ∧ z ≤ x.2) ↔
          ∃ r ∈ [((1 : Nat), (5 : Nat)), (12, 16), (8, 10)], r.1 ≤ z ∧ z ≤ r.2) :=
  ⟨by decide, sort_and_merge_ranges_correct [(1, 5), (12, 16), (8, 10)] (by decide)⟩

/-- When the accumulated list is already strictly ordered-disjoint, the merge
pass is the identity. -/
theorem merge_run_no_overlap :
    ∀ (rs : List URange) (last_range : URange),
      List.Pairwise (fun a b : URange => a.2 < b.1) (last_range :: rs) →
      merge_run last_range rs = last_range :: rs := by
  intro rs
  induction rs with
  | nil => intro last_range _; rw [merge_run]
  | cons r rs' ih =>
    intro last_range hpair
    obtain ⟨h1, h2⟩ := List.pairwise_cons.mp hpair
    have hlt : last_range.2 < r.1 := h1 r (by simp)
    rw [merge_run, if_neg (by omega), ih r h2]

/-- C4: `sort_and_merge_ranges` is idempotent on well-formed inputs. -/
theorem sort_and_merge_ranges_idempotent (input : List URange)
    (hwf : ∀ r ∈ input, r.1 ≤ r.2) :
    sort_and_merge_ranges (sort_and_merge_ranges input) = sort_and_merge_ranges input := by
  obtain ⟨hsort, hdisj, _⟩ := sort_and_merge_ranges_correct input hwf
  have hsortedb : List.Pairwise (fun a b : URange => decide (a.1 ≤ b.1) = true)
      (sort_and_merge_ranges input) := hsort.imp (fun h => by simpa using h)
  have hms : (sort_and_merge_ranges input).mergeSort (fun a b => decide (a.1 ≤ b.1))
      = sort_and_merge_ranges input := List.mergeSort_of_sorted hsortedb
  cases hout : sort_and_merge_ranges input with
  | nil => simp [sort_and_merge_ranges]
  | cons r rs =>
    have hms' : (sort_and_merge_ranges input).mergeSort (fun a b => decide (a.1 ≤ b.1))
        = r :: rs := by rw [hms, hout]
    have heq := sort_and_merge_ranges_eq_merge_run hms'
    rw [hout] at heq hdisj
    rw [heq, merge_run_no_overlap rs r hdisj]

/-- Witness for `sort_and_merge_ranges_idempotent` at a concrete input. -/
theorem sort_and_merge_ranges_idempotent_witness :
    (∀ r ∈ [((1 : Nat), (5 : Nat)), (7, 12), (6, 8), (19, 26), (12, 13), (21, 25)],
        r.1 ≤ r.2) ∧
      sort_and_merge_ranges (sort_and_merge_ranges
        [(1, 5), (7, 12), (6, 8), (19, 26), (12, 13), (21, 25)])
      = sort_and_merge_ranges [(1, 5), (7, 12), (6, 8), (19, 26), (12, 13), (21, 25)] :=
  ⟨by decide, sort_and_merge_ranges_idempotent
    [(1, 5), (7, 12), (6, 8), (19, 26), (12, 13), (21, 25)] (by decide)⟩

end Day05

namespace Day08

/-- The partition invariant for the circuits list of `src/bin/day08.rs`:
every node of `nodes` lies in some circuit, every circuit's members are nodes,
and distinct list entries are disjoint (so every node is in exactly one
circuit). -/
def Partitions (circuits : List (Finset Coords3D)) (nodes : Finset Coords3D) : Prop :=
  (∀ x, x ∈ nodes ↔ ∃ c ∈ circuits, x ∈ c)
  ∧ List.Pairwise (fun c d : Finset Coords3D => ∀ x, x ∈ c → x ∉ d) circuits

/-- Rust `connect_junction_box` from `src/bin/day08.rs` (lines 49-75).  Each
circuit is a set of junction-box coordinates.  The Rust function panics (via
`.expect`) when a box is in no circuit; the embedding returns `none` there.
Otherwise it either leaves the list unchanged (same circuit) or removes the
higher-indexed circuit and extends the lower-indexed one with its members. -/
def connect_junction_box (circuits : List (Finset Coords3D)) (box_a box_b : Coords3D) :
    Option (List (Finset Coords3D)) :=
  match circuits.findIdx? (fun circuit => box_a ∈ circuit),
      circuits.findIdx? (fun circuit => box_b ∈ circuit) with
  | some box_a_circuit_idx, some box_b_circuit_idx =>
    if box_a_circuit_idx = box_b_circuit_idx then some circuits
    else
      let p := if box_b_circuit_idx > box_a_circuit_idx
        then (box_b_circuit_idx, box_a_circuit_idx)
        else (box_a_circuit_idx, box_b_circuit_idx)
      let removed_circuit := circuits.getD p.1 ∅
      some (List.modify (fun c => c ∪ removed_circuit) p.2 (circuits.eraseIdx p.1))
  | _, _ => none

/-- Under pairwise disjointness, the circuit index containing a given box is
unique. -/
theorem index_unique {circuits : List (Finset Coords3D)} {x : Coords3D}
    (hpair : List.Pairwise (fun c d : Finset Coords3D => ∀ y, y ∈ c → y ∉ d) circuits)
    {i j : Nat} (hi : i < circuits.length) (hj : j < circuits.length)
    (hxi : x ∈ circuits[i]) (hxj : x ∈ circuits[j]) : i = j := by
  rcases Nat.lt_trichotomy i j with h | h | h
  · exact absurd hxj (List.pairwise_iff_getElem.mp hpair i j hi hj h x hxi)
  · exact h
  · exact absurd hxi (List.pairwise_iff_getElem.mp hpair j i hj hi h x hxj)

/-- Replacing the two marked entries of a list by their union preserves the
partition invariant and acts on the underlying multiset as advertised. -/
theorem replace_two_spec (t₁ t₂ t₃ : List (Finset Coords3D)) (A B : Finset Coords3D)
    (nodes : Finset Coords3D)
    (hpart : Partitions (t₁ ++ A :: (t₂ ++ B :: t₃)) nodes) :
    Partitions (t₁ ++ (A ∪ B) :: (t₂ ++ t₃)) nodes := by
  obtain ⟨hcover, hpair⟩ := hpart
  constructor
  · intro x
    rw [hcover x]
    constructor
    · rintro ⟨c, hc, hxc⟩
      simp only [List.mem_append, List.mem_cons] at hc
      rcases hc with h | h | h | h | h
      · exact ⟨c, by simp [h], hxc⟩
      · exact ⟨A ∪ B, by simp, by rw [h] at hxc; simp [Finset.mem_union, hxc]⟩
      · exact ⟨c, by simp [h], hxc⟩
      · exact ⟨A ∪ B, by simp, by rw [h] at hxc; simp [Finset.mem_union, hxc]⟩
      · exact ⟨c, by simp [h], hxc⟩
    · rintro ⟨c, hc, hxc⟩
      simp only [List.mem_append, List.mem_cons] at hc
      rcases hc with h | h | h | h
      · exact ⟨c, by simp [h], hxc⟩
      · rw [h] at hxc
        rcases Finset.mem_union.mp hxc with hx | hx
        · exact ⟨A, by simp, hx⟩
        · exact ⟨B, by simp, hx⟩
      · exact ⟨c, by simp [h], hxc⟩
      · exact ⟨c, by simp [h], hxc⟩
  · simp only [List.pairwise_append, List.pairwise_cons, List.mem_append,
      List.mem_cons] at hpair ⊢
    obtain ⟨hp1, ⟨hArel, hp23⟩, hcross⟩ := hpair
    obtain ⟨hp2, ⟨hBrel, hp3⟩, hcross23⟩ := hp23
    refine ⟨hp1, ⟨?_, ?_, ?_, ?_⟩, ?_⟩
    · intro y hy x hx
      rcases Finset.mem_union.mp hx with hxA | hxB
      · refine hArel y ?_ x hxA
        rcases hy with h | h
        · exact Or.inl h
        · exact Or.inr (Or.inr h)
      · rcases hy with h | h
        · intro hxy
          exact hcross23 y h B (Or.inl rfl) x hxy hxB
        · exact hBrel y h x hxB
    · exact hp2
    · exact hp3
    · intro c hc d hd
      exact hcross23 c hc d (Or.inr hd)
    · intro c hc d hd x hxc
      rcases hd with rfl | hd | hd
      · intro hx
        rcases Finset.mem_union.mp hx with hxA | hxB
        · exact hcross c hc A (Or.inl rfl) x hxc hxA
        · exact hcross c hc B (Or.inr (Or.inr (Or.inl rfl))) x hxc hxB
      · exact hcross c hc d (Or.inr (Or.inl hd)) x hxc
      · exact hcross c hc d (Or.inr (Or.inr (Or.inr hd))) x hxc

theorem multiset_replace {X : Type} [DecidableEq X] (t₁ t₂ t₃ : List X) (A B C : X) :
    (↑(t₁ ++ C :: (t₂ ++ t₃)) : Multiset X) + {A, B}
      = (↑(t₁ ++ A :: (t₂ ++ B :: t₃)) : Multiset X) + {C} := by
  simp only [← Multiset.coe_add, ← Multiset.cons_coe, Multiset.insert_eq_cons]
  simp only [← Multiset.singleton_add]
  abel

/-- Core of the merge branch: removing the circuit at the higher index and
extending the one at the lower index with its members preserves the partition,
decreases the circuit count by one, and replaces exactly the two circuits by
their union in the underlying multiset. -/
theorem connect_core (circuits : List (Finset Coords3D)) (nodes : Finset Coords3D)
    (lo hi : Nat) (hlh : lo < hi) (hhi : hi < circuits.length)
    (hpart : Partitions circuits nodes) :
    Partitions (List.modify (fun c => c ∪ circuits.getD hi ∅) lo (circuits.eraseIdx hi)) nodes
    ∧ (List.modify (fun c => c ∪ circuits.getD hi ∅) lo (circuits.eraseIdx hi)).length + 1
        = circuits.length
    ∧ (↑(List.modify (fun c => c ∪ circuits.getD hi ∅) lo (circuits.eraseIdx hi))
          : Multiset (Finset Coords3D)) + {circuits.getD lo ∅, circuits.getD hi ∅}
        = (↑circuits : Multiset (Finset Coords3D)) + {circuits.getD lo ∅ ∪ circuits.getD hi ∅} := by
  have hlo : lo < circuits.length := lt_trans hlh hhi
  have hgetlo : circuits.getD lo ∅ = circuits[lo] := List.getD_eq_getElem circuits ∅ hlo
  have hgethi : circuits.getD hi ∅ = circuits[hi] := List.getD_eq_getElem circuits ∅ hhi
  have htakelen : (circuits.take hi).length = hi := by
    rw [List.length_take]
    omega
  have herase : circuits.eraseIdx hi = circuits.take hi ++ circuits.drop (hi + 1) :=
    List.eraseIdx_eq_take_drop_succ circuits hi
  have heraselen : (circuits.eraseIdx hi).length = circuits.length - 1 := by
    rw [List.length_eraseIdx, if_pos hhi]
  have hloerase : lo < (circuits.eraseIdx hi).length := by omega
  have htake_er : (circuits.eraseIdx hi).take lo = circuits.take lo := by
    rw [herase, List.take_append_of_le_length (by omega), List.take_take]
    congr 1
    omega
  have hlotake : lo < (circuits.take hi).length := by omega
  have hget_er : (circuits.eraseIdx hi)[lo] = circuits[lo] := by
    rw [List.getElem_of_eq herase]
    rw [List.getElem_append_left hlotake]
    exact List.getElem_take circuits
  have e_out : List.modify (fun c => c ∪ circuits.getD hi ∅) lo (circuits.eraseIdx hi)
      = circuits.take lo ++ (circuits[lo] ∪ circuits[hi])
          :: ((circuits.take hi).drop (lo + 1) ++ circuits.drop (hi + 1)) := by
    rw [List.modify_eq_take_cons_drop hloerase]
    rw [htake_er, hget_er, hgethi]
    congr 2
    rw [herase, List.drop_append_of_le_length (by omega)]
  have e_circ : circuits = circuits.take lo ++ circuits[lo]
      :: ((circuits.take hi).drop (lo + 1) ++ circuits[hi] :: circuits.drop (hi + 1)) := by
    have hT : circuits.take hi
        = circuits.take lo ++ circuits[lo] :: (circuits.take hi).drop (lo + 1) := by
      conv_lhs => rw [← List.take_append_drop lo (circuits.take hi),
        List.drop_eq_getElem_cons hlotake]
      rw [List.take_take]
      have hmin : lo ⊓ hi = lo := by omega
      rw [hmin]
      congr 2
      exact List.getElem_take circuits
    conv_lhs => rw [← List.take_append_drop hi circuits,
      List.drop_eq_getElem_cons hhi, hT]
    rw [List.append_assoc, List.cons_append]
  refine ⟨?_, ?_, ?_⟩
  · rw [e_out]
    exact replace_two_spec _ _ _ _ _ nodes (e_circ ▸ hpart)
  · rw [List.length_modify, heraselen]
    omega
  · rw [e_out, hgetlo, hgethi]
    rw [multiset_replace (circuits.take lo) ((circuits.take hi).drop (lo + 1))
      (circuits.drop (hi + 1)) circuits[lo] circuits[hi] (circuits[lo] ∪ circuits[hi])]
    congr 1
    exact congrArg _ e_circ.symm

/-- C6: under the partition invariant, `connect_junction_box` succeeds, the
result still partitions the node set, two boxes in the same circuit make it a
no-op, and otherwise exactly the two circuits containing the boxes are
replaced by their union, so the circuit count drops by exactly one. -/
theorem connect_junction_box_spec (circuits : List (Finset Coords3D))
    (nodes : Finset Coords3D) (a b : Coords3D)
    (hpart : Partitions circuits nodes)
    (ha : ∃ c ∈ circuits, a ∈ c) (hb : ∃ c ∈ circuits, b ∈ c) :
    ∃ out, connect_junction_box circuits a b = some out
      ∧ Partitions out nodes
      ∧ ((∃ c ∈ circuits, a ∈ c ∧ b ∈ c) → out = circuits)
      ∧ (¬(∃ c ∈ circuits, a ∈ c ∧ b ∈ c) →
          out.length + 1 = circuits.length
          ∧ ∃ A B : Finset Coords3D, A ∈ circuits ∧ a ∈ A ∧ B ∈ circuits ∧ b ∈ B ∧
            (↑out : Multiset (Finset Coords3D)) + {A, B}
              = (↑circuits : Multiset (Finset Coords3D)) + {A ∪ B}) := by
  have hexa : ∃ c ∈ circuits, (decide (a ∈ c)) = true := by
    obtain ⟨c, hc, hac⟩ := ha
    exact ⟨c, hc, by simpa using hac⟩
  have hexb : ∃ c ∈ circuits, (decide (b ∈ c)) = true := by
    obtain ⟨c, hc, hbc⟩ := hb
    exact ⟨c, hc, by simpa using hbc⟩
  obtain ⟨ia, hfa⟩ : ∃ i, circuits.findIdx? (fun c => decide (a ∈ c)) = some i :=
    ⟨_, List.findIdx?_eq_some_of_exists hexa⟩
  obtain ⟨ib, hfb⟩ : ∃ i, circuits.findIdx? (fun c => decide (b ∈ c)) = some i :=
    ⟨_, List.findIdx?_eq_some_of_exists hexb⟩
  have hia' := List.findIdx?_eq_some_iff_findIdx_eq.mp hfa
  have hib' := List.findIdx?_eq_some_iff_findIdx_eq.mp hfb
  have hialt : ia < circuits.length := hia'.1
  have hiblt : ib < circuits.length := hib'.1
  have hamem : a ∈ circuits[ia] := by
    have h := @List.findIdx_getElem _ (fun c => decide (a ∈ c)) circuits
      (by rw [hia'.2]; exact hialt)
    simp only [hia'.2] at h
    simpa using h
  have hbmem : b ∈ circuits[ib] := by
    have h := @List.findIdx_getElem _ (fun c => decide (b ∈ c)) circuits
      (by rw [hib'.2]; exact hiblt)
    simp only [hib'.2] at h
    simpa using h
  have hshared_iff : (∃ c ∈ circuits, a ∈ c ∧ b ∈ c) ↔ ia = ib := by
    constructor
    · rintro ⟨c, hc, hac, hbc⟩
      obtain ⟨j, hj, hjc⟩ := List.mem_iff_getElem.mp hc
      have h1 : j = ia := index_unique hpart.2 hj hialt (hjc ▸ hac) hamem
      have h2 : j = ib := index_unique hpart.2 hj hiblt (hjc ▸ hbc) hbmem
      omega
    · intro h
      subst h
      exact ⟨circuits[ia], List.getElem_mem hialt, hamem, hbmem⟩
  by_cases hsame : ia = ib
  · have hcode : connect_junction_box circuits a b = some circuits := by
      unfold connect_junction_box
      rw [hfa, hfb]
      simp [hsame]
    exact ⟨circuits, hcode, hpart, fun _ => rfl,
      fun hno => absurd (hshared_iff.mpr hsame) hno⟩
  · rcases Nat.lt_or_ge ia ib with hgt | hge
    · have hcode : connect_junction_box circuits a b
          = some (List.modify (fun c => c ∪ circuits.getD ib ∅) ia (circuits.eraseIdx ib)) := by
        unfold connect_junction_box
        rw [hfa, hfb]
        simp only [if_neg hsame]
        simp [hgt]
      obtain ⟨hp, hlen, hmult⟩ := connect_core circuits nodes ia ib hgt hiblt hpart
      refine ⟨_, hcode, hp, fun hshared => absurd (hshared_iff.mp hshared) hsame,
        fun _ => ⟨hlen, circuits[ia], circuits[ib],
          List.getElem_mem hialt, hamem, List.getElem_mem hiblt, hbmem, ?_⟩⟩
      rw [← List.getD_eq_getElem circuits ∅ hialt, ← List.getD_eq_getElem circuits ∅ hiblt]
      exact hmult
    · have hlt : ib < ia := by omega
      have hcode : connect_junction_box circuits a b
          = some (List.modify (fun c => c ∪ circuits.getD ia ∅) ib (circuits.eraseIdx ia)) := by
        unfold connect_junction_box
        rw [hfa, hfb]
        simp only [if_neg hsame]
        have : ¬ (ib > ia) := by omega
        simp [this]
      obtain ⟨hp, hlen, hmult⟩ := connect_core circuits nodes ib ia hlt hialt hpart
      refine ⟨_, hcode, hp, fun hshared => absurd (hshared_iff.mp hshared) hsame,
        fun _ => ⟨hlen, circuits[ia], circuits[ib],
          List.getElem_mem hialt, hamem, List.getElem_mem hiblt, hbmem, ?_⟩⟩
      rw [Multiset.pair_comm, Finset.union_comm]
      rw [← List.getD_eq_getElem circuits ∅ hiblt, ← List.getD_eq_getElem circuits ∅ hialt]
      exact hmult

/-- Witness for `connect_junction_box_spec`: two singleton circuits whose
boxes get joined. -/
theorem connect_junction_box_spec_witness :
    Partitions [{(⟨0, 0, 0⟩ : Coords3D)}, {⟨1, 0, 0⟩}] {⟨0, 0, 0⟩, ⟨1, 0, 0⟩}
    ∧ ∃ out, connect_junction_box [{(⟨0, 0, 0⟩ : Coords3D)}, {⟨1, 0, 0⟩}] ⟨0, 0, 0⟩ ⟨1, 0, 0⟩
          = some out
        ∧ Partitions out {⟨0, 0, 0⟩, ⟨1, 0, 0⟩} ∧ out.length + 1 = 2 := by
  have hpart : Partitions [{(⟨0, 0, 0⟩ : Coords3D)}, {⟨1, 0, 0⟩}] {⟨0, 0, 0⟩, ⟨1, 0, 0⟩} := by
    constructor
    · intro x
      constructor
      · intro hx
        rcases Finset.mem_insert.mp hx with rfl | hx
        · exact ⟨{⟨0, 0, 0⟩}, by simp, by simp⟩
        · exact ⟨{⟨1, 0, 0⟩}, by simp, by simpa using hx⟩
      · rintro ⟨c, hc, hxc⟩
        simp only [List.mem_cons, List.not_mem_nil, or_false] at hc
        rcases hc with rfl | rfl
        · simp only [Finset.mem_singleton] at hxc
          simp [hxc]
        · simp only [Finset.mem_singleton] at hxc
          simp [hxc]
    · refine List.Pairwise.cons ?_ (by simp)
      intro d hd x hx
      simp only [List.mem_cons, List.not_mem_nil, or_false] at hd
      subst hd
      simp only [Finset.mem_singleton] at hx
      subst hx
      decide
  obtain ⟨out, hcode, hp, _, hdiff⟩ := connect_junction_box_spec
    [{(⟨0, 0, 0⟩ : Coords3D)}, {⟨1, 0, 0⟩}] {⟨0, 0, 0⟩, ⟨1, 0, 0⟩} ⟨0, 0, 0⟩ ⟨1, 0, 0⟩ hpart
    ⟨{⟨0, 0, 0⟩}, by simp, by simp⟩ ⟨{⟨1, 0, 0⟩}, by simp, by simp⟩
  have hnshared : ¬ ∃ c ∈ [({(⟨0, 0, 0⟩ : Coords3D)} : Finset Coords3D), {⟨1, 0, 0⟩}],
      (⟨0, 0, 0⟩ : Coords3D) ∈ c ∧ (⟨1, 0, 0⟩ : Coords3D) ∈ c := by decide
  exact ⟨hpart, out, hcode, hp, (hdiff hnshared).1⟩


end Day08

namespace Day10

/-- Rust `Machine` from `src/bin/day10.rs`.  The Rust `u16` fields are modelled by
`Nat` together with the `< 2 ^ 16` bounds that the `u16` type guarantees. -/
structure Machine where
  bulb_count : Nat
  target_state : Nat
  buttons : List Nat
  joltages : List Nat
  target_lt : target_state < 2 ^ 16
  buttons_lt : ∀ b ∈ buttons, b < 2 ^ 16

/-- A queue entry `(round_num, state_to_explore)` of the BFS. -/
abbrev Entry := Nat × Nat

/-- The pushes of one BFS iteration: for every button whose successor state is
unexplored, enqueue `(round_num + 1, state ^ button)`.  This is the
`machine.buttons.iter().for_each(...)` loop of `min_presses_to_target_state`. -/
def pushesOf (m : Machine) (round_num state : Nat) (explored' : Finset Nat) : List Entry :=
  (m.buttons.filter (fun button => Nat.xor state button ∉ explored')).map
    (fun button => (round_num + 1, Nat.xor state button))

/-- Weight of a queue entry for the termination measure: explored states are
heavy, unexplored ones light. -/
def entryWeight (m : Machine) (explored : Finset Nat) (e : Entry) : Nat :=
  if e.2 ∈ explored then m.buttons.length + 2 else 1

theorem pushesOf_length_le (m : Machine) (round_num state : Nat) (explored' : Finset Nat) :
    (pushesOf m round_num state explored').length ≤ m.buttons.length := by
  rw [pushesOf, List.length_map]
  exact List.length_filter_le _ _

theorem mem_pushesOf {m : Machine} {round_num state : Nat} {explored' : Finset Nat} {e : Entry} :
    e ∈ pushesOf m round_num state explored' ↔
      ∃ b ∈ m.buttons, Nat.xor state b ∉ explored' ∧ e = (round_num + 1, Nat.xor state b) := by
  simp only [pushesOf, List.mem_map, List.mem_filter, decide_eq_true_eq]
  constructor
  · rintro ⟨b, ⟨hb, hnb⟩, rfl⟩
    exact ⟨b, hb, hnb, rfl⟩
  · rintro ⟨b, hb, hnb, rfl⟩
    exact ⟨b, ⟨hb, hnb⟩, rfl⟩

/-- The BFS loop of `min_presses_to_target_state` from `src/bin/day10.rs`
(lines 82-103): pop the queue front; if it is the target state, return its
round count; otherwise mark the state explored and enqueue all unexplored XOR
successors.  An exhausted queue models the `panic!("... unreachable")`, so the
embedding returns `none` there. -/
def bfsAux (m : Machine) (queue : List Entry) (explored : Finset Nat)
    (hq : ∀ e ∈ queue, e.2 < 2 ^ 16) : Option Nat :=
  match queue with
  | [] => none
  | (round_num, state) :: rest =>
    if state = m.target_state then some round_num
    else
      bfsAux m (rest ++ pushesOf m round_num state (insert state explored))
        (insert state explored)
        (by
          intro e he
          rcases List.mem_append.mp he with h | h
          · exact hq e (List.mem_cons_of_mem _ h)
          · obtain ⟨b, hb, _, rfl⟩ := mem_pushesOf.mp h
            exact Nat.xor_lt_two_pow (hq (round_num, state) (List.mem_cons_self _ _)) (m.buttons_lt b hb))
termination_by ((Finset.range (2 ^ 16) \ explored).card,
  (queue.map (entryWeight m explored)).sum)
decreasing_by
  by_cases hstate : state ∈ explored
  · have he : insert state explored = explored := Finset.insert_eq_self.mpr hstate
    rw [he]
    apply Prod.Lex.right
    rw [List.map_append, List.sum_append, List.map_cons, List.sum_cons]
    have hpush : ((pushesOf m round_num state explored).map (entryWeight m explored)).sum
        ≤ m.buttons.length := by
      have hone : ∀ x ∈ (pushesOf m round_num state explored).map (entryWeight m explored),
          x ≤ 1 := by
        intro x hx
        obtain ⟨e, he', rfl⟩ := List.mem_map.mp hx
        obtain ⟨b, _, hnb, rfl⟩ := mem_pushesOf.mp he'
        simp only [entryWeight, if_neg hnb]
        exact le_refl 1
      calc ((pushesOf m round_num state explored).map (entryWeight m explored)).sum
          ≤ ((pushesOf m round_num state explored).map (entryWeight m explored)).length * 1 := by
            have := List.sum_le_card_nsmul
              ((pushesOf m round_num state explored).map (entryWeight m explored)) 1 hone
            simpa using this
        _ = (pushesOf m round_num state explored).length := by rw [List.length_map, Nat.mul_one]
        _ ≤ m.buttons.length := pushesOf_length_le _ _ _ _
    have hw : entryWeight m explored (round_num, state) = m.buttons.length + 2 := by
      simp [entryWeight, hstate]
    omega
  · apply Prod.Lex.left
    apply Finset.card_lt_card
    constructor
    · intro x hx
      rw [Finset.mem_sdiff] at hx ⊢
      exact ⟨hx.1, fun hmem => hx.2 (Finset.mem_insert_of_mem hmem)⟩
    · intro hsub
      have hs2 : state < 2 ^ 16 := hq (round_num, state) (List.mem_cons_self _ _)
      have h1 : state ∈ Finset.range (2 ^ 16) \ explored := by
        rw [Finset.mem_sdiff, Finset.mem_range]
        exact ⟨hs2, hstate⟩
      have h2 := hsub h1
      rw [Finset.mem_sdiff] at h2
      exact h2.2 (Finset.mem_insert_self _ _)

/-- Rust `min_presses_to_target_state` from `src/bin/day10.rs`: BFS from state `0`
(all bulbs off) with an empty explored set.  `some r` models returning `r`,
`none` models the unreachable-target panic. -/
def min_presses_to_target_state (m : Machine) : Option Nat :=
  bfsAux m [(0, 0)] ∅ (by
    intro e he
    rw [List.mem_singleton] at he
    subst he
    norm_num)

/-- Rust `Reach m n t`: some sequence of `n` button presses XOR-folds from state
`0` to exactly `t`. -/
def Reach (m : Machine) (n : Nat) (t : Nat) : Prop :=
  ∃ presses : List Nat, presses.length = n ∧ (∀ b ∈ presses, b ∈ m.buttons) ∧
    presses.foldl Nat.xor 0 = t

theorem reach_zero {m : Machine} {t : Nat} : Reach m 0 t ↔ t = 0 := by
  constructor
  · rintro ⟨presses, hlen, _, hfold⟩
    rw [List.length_eq_zero] at hlen
    subst hlen
    simpa using hfold.symm
  · rintro rfl
    exact ⟨[], rfl, by simp, rfl⟩

theorem reach_step {m : Machine} {n u : Nat} (h : Reach m n u) {b : Nat}
    (hb : b ∈ m.buttons) : Reach m (n + 1) (Nat.xor u b) := by
  obtain ⟨presses, hlen, hmem, hfold⟩ := h
  refine ⟨presses ++ [b], by simp [hlen], ?_, ?_⟩
  · intro c hc
    rcases List.mem_append.mp hc with h | h
    · exact hmem c h
    · rw [List.mem_singleton] at h
      subst h
      exact hb
  · rw [List.foldl_concat, hfold]

theorem reach_succ {m : Machine} {n t : Nat} :
    Reach m (n + 1) t ↔ ∃ u b, Reach m n u ∧ b ∈ m.buttons ∧ t = Nat.xor u b := by
  constructor
  · rintro ⟨presses, hlen, hmem, hfold⟩
    rcases List.eq_nil_or_concat presses with rfl | ⟨l, b, rfl⟩
    · simp at hlen
    · rw [List.concat_eq_append] at hlen hmem hfold
      rw [List.foldl_concat] at hfold
      rw [List.length_append, List.length_singleton] at hlen
      refine ⟨l.foldl Nat.xor 0, b, ⟨l, by omega, ?_, rfl⟩, ?_, hfold.symm⟩
      · intro c hc
        exact hmem c (List.mem_append_left _ hc)
      · exact hmem b (List.mem_append_right _ (List.mem_singleton_self b))
  · rintro ⟨u, b, hu, hb, rfl⟩
    exact reach_step hu hb

/-- Any set containing `0` and closed under pressing buttons contains every
reachable state. -/
theorem reach_subset_closed (m : Machine) (E : Finset Nat) (h0 : 0 ∈ E)
    (hcl : ∀ s ∈ E, ∀ b ∈ m.buttons, Nat.xor s b ∈ E) :
    ∀ n t, Reach m n t → t ∈ E := by
  intro n
  induction n with
  | zero =>
    intro t ht
    rw [reach_zero.mp ht]
    exact h0
  | succ n ih =>
    intro t ht
    obtain ⟨u, b, hu, hb, rfl⟩ := reach_succ.mp ht
    exact hcl u (ih u hu) b hb

/-- The BFS loop invariant relating the queue and the explored set. -/
structure Inv (m : Machine) (queue : List Entry) (explored : Finset Nat) : Prop where
  sorted : List.Pairwise (fun e f : Entry => e.1 ≤ f.1) queue
  sound : ∀ e ∈ queue, Reach m e.1 e.2
  window : ∀ e ∈ queue, ∀ f ∈ queue, e.1 ≤ f.1 + 1
  closure : ∀ s ∈ explored, ∀ b ∈ m.buttons,
    Nat.xor s b ∈ explored ∨ ∃ e ∈ queue, e.2 = Nat.xor s b
  target_not_explored : m.target_state ∉ explored
  gstar : ∀ n t, Reach m n t → (∀ e ∈ queue, n < e.1) → t ∈ explored
  hstar : ∀ n t, Reach m n t → (∀ e ∈ queue, n ≤ e.1) → queue ≠ [] →
    t ∈ explored ∨ ∃ e ∈ queue, e.1 ≤ n ∧ e.2 = t

theorem inv_init (m : Machine) : Inv m [(0, 0)] ∅ := by
  refine ⟨?_, ?_, ?_, ?_, ?_, ?_, ?_⟩
  · simp
  · intro e he
    rw [List.mem_singleton] at he
    subst he
    exact reach_zero.mpr rfl
  · intro e he f hf
    rw [List.mem_singleton] at he hf
    subst he
    subst hf
    omega
  · intro s hs
    simp at hs
  · simp
  · intro n t _ hlt
    have := hlt (0, 0) (List.mem_singleton_self _)
    omega
  · intro n t ht hle _
    have h0 := hle (0, 0) (List.mem_singleton_self _)
    have hn : n = 0 := by omega
    subst hn
    exact Or.inr ⟨(0, 0), List.mem_singleton_self _, le_refl _, (reach_zero.mp ht).symm⟩

/-- One BFS iteration preserves the loop invariant. -/
theorem inv_step (m : Machine) {round_num state : Nat} {rest : List Entry}
    {explored : Finset Nat}
    (hinv : Inv m ((round_num, state) :: rest) explored)
    (hne : state ≠ m.target_state) :
    Inv m (rest ++ pushesOf m round_num state (insert state explored))
      (insert state explored) := by
  obtain ⟨hsorted, hsound, hwindow, hclosure, htne, hgstar, hhstar⟩ := hinv
  obtain ⟨hhead, hrest⟩ := List.pairwise_cons.mp hsorted
  have hshead : Reach m round_num state :=
    hsound (round_num, state) (List.mem_cons_self _ _)
  have hP1 : ∀ e ∈ pushesOf m round_num state (insert state explored),
      e.1 = round_num + 1 ∧ e.2 ∉ insert state explored := by
    intro e he
    obtain ⟨b, _, hnb, rfl⟩ := mem_pushesOf.mp he
    exact ⟨rfl, hnb⟩
  have hbounds : ∀ e ∈ rest ++ pushesOf m round_num state (insert state explored),
      round_num ≤ e.1 ∧ e.1 ≤ round_num + 1 := by
    intro e he
    rcases List.mem_append.mp he with h | h
    · exact ⟨hhead e h, hwindow e (List.mem_cons_of_mem _ h)
        (round_num, state) (List.mem_cons_self _ _)⟩
    · rw [(hP1 e h).1]
      omega
  have hclosure' : ∀ s ∈ insert state explored, ∀ b ∈ m.buttons,
      Nat.xor s b ∈ insert state explored ∨
        ∃ e ∈ rest ++ pushesOf m round_num state (insert state explored),
          e.2 = Nat.xor s b := by
    intro s hs b hb
    rcases Finset.mem_insert.mp hs with rfl | hs'
    · by_cases hmem : Nat.xor s b ∈ insert s explored
      · exact Or.inl hmem
      · refine Or.inr ⟨(round_num + 1, Nat.xor s b), ?_, rfl⟩
        exact List.mem_append_right _ (mem_pushesOf.mpr ⟨b, hb, hmem, rfl⟩)
    · rcases hclosure s hs' b hb with h | ⟨e, he, hxe⟩
      · exact Or.inl (Finset.mem_insert_of_mem h)
      · rcases List.mem_cons.mp he with rfl | he'
        · rw [← hxe]
          exact Or.inl (Finset.mem_insert_self _ _)
        · exact Or.inr ⟨e, List.mem_append_left _ he', hxe⟩
  have hzero : (0 : Nat) ∈ insert state explored ∨
      ∃ e ∈ rest, e.1 ≤ 0 ∧ e.2 = 0 := by
    rcases hhstar 0 0 (reach_zero.mpr rfl)
        (fun e _ => Nat.zero_le _) (List.cons_ne_nil _ _) with h | ⟨e, he, hle, he2⟩
    · exact Or.inl (Finset.mem_insert_of_mem h)
    · rcases List.mem_cons.mp he with rfl | he'
      · exact Or.inl (by rw [← he2]; exact Finset.mem_insert_self _ _)
      · exact Or.inr ⟨e, he', hle, he2⟩
  refine ⟨?_, ?_, ?_, hclosure', ?_, ?_, ?_⟩
  · rw [List.pairwise_append]
    refine ⟨hrest, ?_, ?_⟩
    · rw [List.pairwise_iff_forall_sublist]
      intro e f hsub
      have he := hsub.subset (List.mem_cons_self _ _)
      have hf := hsub.subset (List.mem_cons_of_mem _ (List.mem_cons_self _ _))
      rw [(hP1 e he).1, (hP1 f hf).1]
    · intro e he f hf
      have h1 := hwindow e (List.mem_cons_of_mem _ he) (round_num, state) (List.mem_cons_self _ _)
      rw [(hP1 f hf).1]
      exact h1
  · intro e he
    rcases List.mem_append.mp he with h | h
    · exact hsound e (List.mem_cons_of_mem _ h)
    · obtain ⟨b, hb, _, rfl⟩ := mem_pushesOf.mp h
      exact reach_step hshead hb
  · intro e he f hf
    have h1 := (hbounds e he).2
    have h2 := (hbounds f hf).1
    omega
  · rw [Finset.mem_insert]
    push_neg
    exact ⟨fun h => hne h.symm, htne⟩
  · intro n t ht hlt
    by_cases hq' : rest ++ pushesOf m round_num state (insert state explored) = []
    · obtain ⟨hr0, hp0⟩ := List.append_eq_nil.mp hq'
      have h0 : (0 : Nat) ∈ insert state explored := by
        rcases hzero with h | ⟨e, he, _⟩
        · exact h
        · rw [hr0] at he
          simp at he
      have hcl : ∀ s ∈ insert state explored, ∀ b ∈ m.buttons,
          Nat.xor s b ∈ insert state explored := by
        intro s hs b hb
        rcases hclosure' s hs b hb with h | ⟨e, he, _⟩
        · exact h
        · rw [hq'] at he
          simp at he
      exact reach_subset_closed m _ h0 hcl n t ht
    · obtain ⟨e₀, he₀⟩ := List.exists_mem_of_ne_nil _ hq'
      have hn_ub : n ≤ round_num := by
        have := hlt e₀ he₀
        have := (hbounds e₀ he₀).2
        omega
      by_cases hnr : n < round_num
      · have := hgstar n t ht (by
          intro e he
          rcases List.mem_cons.mp he with rfl | he'
          · exact hnr
          · have := hhead e he'
            omega)
        exact Finset.mem_insert_of_mem this
      · have hnn : n = round_num := by omega
        rcases hhstar n t ht (by
            intro e he
            rcases List.mem_cons.mp he with rfl | he'
            · omega
            · have := hhead e he'
              omega) (List.cons_ne_nil _ _) with h | ⟨e, he, hle, he2⟩
        · exact Finset.mem_insert_of_mem h
        · rcases List.mem_cons.mp he with rfl | he'
          · rw [← he2]
            exact Finset.mem_insert_self _ _
          · exfalso
            have := hlt e (List.mem_append_left _ he')
            omega
  · intro n t ht hle hq'ne
    obtain ⟨e₀, he₀⟩ := List.exists_mem_of_ne_nil _ hq'ne
    have hn_ub : n ≤ round_num + 1 := by
      have := hle e₀ he₀
      have := (hbounds e₀ he₀).2
      omega
    by_cases hcase : n ≤ round_num
    · rcases hhstar n t ht (by
          intro e he
          rcases List.mem_cons.mp he with rfl | he'
          · exact hcase
          · have := hhead e he'
            omega) (List.cons_ne_nil _ _) with h | ⟨e, he, hle', he2⟩
      · exact Or.inl (Finset.mem_insert_of_mem h)
      · rcases List.mem_cons.mp he with rfl | he'
        · exact Or.inl (by rw [← he2]; exact Finset.mem_insert_self _ _)
        · exact Or.inr ⟨e, List.mem_append_left _ he', hle', he2⟩
    · have hnn : n = round_num + 1 := by omega
      subst hnn
      obtain ⟨u, b, hu, hb, rfl⟩ := reach_succ.mp ht
      rcases hhstar round_num u hu (by
          intro e he
          rcases List.mem_cons.mp he with rfl | he'
          · exact le_refl _
          · exact hhead e he') (List.cons_ne_nil _ _) with h | ⟨e, he, hle', he2⟩
      · rcases hclosure u h b hb with h2 | ⟨e, he, hxe⟩
        · exact Or.inl (Finset.mem_insert_of_mem h2)
        · rcases List.mem_cons.mp he with rfl | he'
          · exact Or.inl (by rw [← hxe]; exact Finset.mem_insert_self _ _)
          · refine Or.inr ⟨e, List.mem_append_left _ he', ?_, hxe⟩
            have := hwindow e (List.mem_cons_of_mem _ he') (round_num, state)
              (List.mem_cons_self _ _)
            omega
      · rcases List.mem_cons.mp he with rfl | he'
        · have he2' : state = u := he2
          subst he2'
          by_cases hmem : Nat.xor state b ∈ insert state explored
          · exact Or.inl hmem
          · refine Or.inr ⟨(round_num + 1, Nat.xor state b), ?_, le_refl _, rfl⟩
            exact List.mem_append_right _ (mem_pushesOf.mpr ⟨b, hb, hmem, rfl⟩)
        · exfalso
          have := hle e (List.mem_append_left _ he')
          omega

/-- Full BFS correctness: under the invariant, a returned count is the exact
minimum press count for the target, and `none` (the panic) happens exactly
when the target is unreachable. -/
theorem bfsAux_correct (m : Machine) :
    ∀ (queue : List Entry) (explored : Finset Nat) (hq : ∀ e ∈ queue, e.2 < 2 ^ 16),
      Inv m queue explored →
      (∀ r, bfsAux m queue explored hq = some r →
        Reach m r m.target_state ∧ ∀ k, Reach m k m.target_state → r ≤ k)
      ∧ (bfsAux m queue explored hq = none → ∀ k, ¬Reach m k m.target_state) := by
  refine bfsAux.induct m (fun queue explored hq => Inv m queue explored →
      ((∀ r, bfsAux m queue explored hq = some r →
        Reach m r m.target_state ∧ ∀ k, Reach m k m.target_state → r ≤ k)
      ∧ (bfsAux m queue explored hq = none → ∀ k, ¬Reach m k m.target_state)))
    ?_ ?_ ?_
  · intro explored hq _ hinv
    constructor
    · intro r hr
      rw [bfsAux] at hr
      simp at hr
    · intro _ k hk
      exact absurd (hinv.gstar k m.target_state hk (by simp)) hinv.target_not_explored
  · intro explored round_num rest hq _ hinv
    have hres : bfsAux m ((round_num, m.target_state) :: rest) explored hq = some round_num := by
      rw [bfsAux]
      simp
    constructor
    · intro r hr
      rw [hres] at hr
      obtain rfl : round_num = r := by simpa using hr
      refine ⟨hinv.sound (round_num, m.target_state) (List.mem_cons_self _ _), ?_⟩
      intro k hk
      by_contra hlt
      push_neg at hlt
      refine absurd (hinv.gstar k m.target_state hk ?_) hinv.target_not_explored
      intro e he
      rcases List.mem_cons.mp he with rfl | he'
      · exact hlt
      · have := (List.pairwise_cons.mp hinv.sorted).1 e he'
        omega
    · intro hnone
      rw [hres] at hnone
      simp at hnone
  · intro explored round_num state rest hq hne _ ih hinv
    have hstep := inv_step m hinv hne
    have hres : bfsAux m ((round_num, state) :: rest) explored hq
        = bfsAux m (rest ++ pushesOf m round_num state (insert state explored))
            (insert state explored) (by
              intro e he
              rcases List.mem_append.mp he with h | h
              · exact hq e (List.mem_cons_of_mem _ h)
              · obtain ⟨b, hb, _, rfl⟩ := mem_pushesOf.mp h
                exact Nat.xor_lt_two_pow (hq (round_num, state) (List.mem_cons_self _ _))
                  (m.buttons_lt b hb)) := by
      rw [bfsAux]
      simp [hne]
    rw [hres]
    exact ih hstep

/-- C1: when the target state is reachable by some XOR-fold of button presses,
`min_presses_to_target_state` returns exactly the minimum press count (in
particular `0` when the target state is `0`). -/
theorem min_presses_to_target_state_correct (m : Machine)
    (hreach : ∃ k, Reach m k m.target_state) :
    ∃ n, min_presses_to_target_state m = some n
      ∧ Reach m n m.target_state
      ∧ (∀ k, Reach m k m.target_state → n ≤ k)
      ∧ (m.target_state = 0 → n = 0) := by
  have h := bfsAux_correct m [(0, 0)] ∅ (by
    intro e he
    rw [List.mem_singleton] at he
    subst he
    norm_num) (inv_init m)
  rw [min_presses_to_target_state]
  cases hres : bfsAux m [(0, 0)] ∅ (by
      intro e he
      rw [List.mem_singleton] at he
      subst he
      norm_num) with
  | none =>
    obtain ⟨k, hk⟩ := hreach
    exact absurd hk (h.2 hres k)
  | some r =>
    obtain ⟨hr, hmin⟩ := h.1 r hres
    refine ⟨r, rfl, hr, hmin, ?_⟩
    intro h0
    have : Reach m 0 m.target_state := reach_zero.mpr h0
    have := hmin 0 this
    omega

/-- Witness for `min_presses_to_target_state_correct`: the first machine of
the Day 10 unit tests, whose target `6` is reachable in two presses. -/
theorem min_presses_to_target_state_correct_witness :
    (∃ k, Reach ⟨4, 6, [8, 10, 4, 12, 5, 3], [3, 5, 4, 7], by norm_num, by decide⟩
      k (Machine.mk 4 6 [8, 10, 4, 12, 5, 3] [3, 5, 4, 7] (by norm_num) (by decide)).target_state)
    ∧ ∃ n, min_presses_to_target_state
          ⟨4, 6, [8, 10, 4, 12, 5, 3], [3, 5, 4, 7], by norm_num, by decide⟩ = some n
        ∧ Reach ⟨4, 6, [8, 10, 4, 12, 5, 3], [3, 5, 4, 7], by norm_num, by decide⟩ n
            (Machine.mk 4 6 [8, 10, 4, 12, 5, 3] [3, 5, 4, 7] (by norm_num) (by decide)).target_state
        ∧ (∀ k, Reach ⟨4, 6, [8, 10, 4, 12, 5, 3], [3, 5, 4, 7], by norm_num, by decide⟩ k
            (Machine.mk 4 6 [8, 10, 4, 12, 5, 3] [3, 5, 4, 7] (by norm_num) (by decide)).target_state → n ≤ k)
        ∧ ((Machine.mk 4 6 [8, 10, 4, 12, 5, 3] [3, 5, 4, 7] (by norm_num) (by decide)).target_state = 0
            → n = 0) :=
  have hreach : ∃ k, Reach ⟨4, 6, [8, 10, 4, 12, 5, 3], [3, 5, 4, 7], by norm_num, by decide⟩
      k (Machine.mk 4 6 [8, 10, 4, 12, 5, 3] [3, 5, 4, 7] (by norm_num) (by decide)).target_state :=
    ⟨2, [5, 3], rfl, by decide, rfl⟩
  ⟨hreach, min_presses_to_target_state_correct _ hreach⟩

/-- C2: when the target state is unreachable, `min_presses_to_target_state`
terminates without producing a count: the embedding yields `none`, modelling
the explicit `panic!("Machine target state [...] is unreachable")`. -/
theorem min_presses_to_target_state_unreachable (m : Machine)
    (hun : ∀ k, ¬Reach m k m.target_state) :
    min_presses_to_target_state m = none := by
  have h := bfsAux_correct m [(0, 0)] ∅ (by
    intro e he
    rw [List.mem_singleton] at he
    subst he
    norm_num) (inv_init m)
  rw [min_presses_to_target_state]
  cases hres : bfsAux m [(0, 0)] ∅ (by
      intro e he
      rw [List.mem_singleton] at he
      subst he
      norm_num) with
  | none => rfl
  | some r => exact absurd (h.1 r hres).1 (hun r)

/-- Witness for `min_presses_to_target_state_unreachable`: one button that
only toggles bulb 0 can never light bulb 1, so target `3` is unreachable. -/
theorem min_presses_to_target_state_unreachable_witness :
    (∀ k, ¬Reach ⟨2, 3, [1], [], by norm_num, by decide⟩ k
      (Machine.mk 2 3 [1] [] (by norm_num) (by decide)).target_state)
    ∧ min_presses_to_target_state ⟨2, 3, [1], [], by norm_num, by decide⟩ = none :=
  have hclosed : ∀ n t, Reach ⟨2, 3, [1], [], by norm_num, by decide⟩ n t →
      t ∈ ({0, 1} : Finset Nat) :=
    reach_subset_closed _ {0, 1} (by decide) (by
      intro s hs b hb
      simp only [List.mem_singleton] at hb
      subst hb
      rcases Finset.mem_insert.mp hs with rfl | hs'
      · decide
      · rw [Finset.mem_singleton] at hs'
        subst hs'
        decide)
  have hun : ∀ k, ¬Reach ⟨2, 3, [1], [], by norm_num, by decide⟩ k
      (Machine.mk 2 3 [1] [] (by norm_num) (by decide)).target_state := by
    intro k hk
    have h3 := hclosed k _ hk
    revert h3
    decide
  ⟨hun, min_presses_to_target_state_unreachable _ hun⟩

end Day10

namespace Day09

/-- Rust `Cell` enum from `src/bin/day09.rs`: empty space, red tile, green tile. -/
inductive Cell where
  | Empty
  | Red
  | Green
deriving DecidableEq, Repr

/-- Rust `Coords2D` from `src/coords/coords_2d.rs`. -/
structure Coords2D where
  x : Int
  y : Int
deriving DecidableEq, Repr

/-- The `grid::Grid<Cell>` used by Day 9: a dense `rows × cols` grid.  The
`cell` function is only consulted at in-bounds positions `(y, x)`. -/
structure GridC where
  rows : Nat
  cols : Nat
  cell : Int → Int → Cell

/-- The grid crate's `grid.get(y, x)`: `None` out of bounds (also for negative
coordinates), `Some` of the cell otherwise. -/
def lookup (g : GridC) (y x : Int) : Option Cell :=
  if 0 ≤ y ∧ y < g.rows ∧ 0 ≤ x ∧ x < g.cols then some (g.cell y x) else none

/-- Rust `*grid.get_mut(y, x).unwrap() = v`; the verified code path only writes in
bounds, so the out-of-bounds case leaves the grid unchanged. -/
def setCell (g : GridC) (y x : Int) (v : Cell) : GridC :=
  if 0 ≤ y ∧ y < g.rows ∧ 0 ≤ x ∧ x < g.cols then
    { g with cell := fun y' x' => if y' = y ∧ x' = x then v else g.cell y' x' }
  else g

/-- The `search_dirs` array `[(0, 1), (0, -1), (1, 0), (-1, 0)]` of
`fill_green_tiles` — `(dx, dy)` pairs. -/
def search_dirs : List (Int × Int) := [(0, 1), (0, -1), (1, 0), (-1, 0)]

/-- The neighbours of `c` whose cell is currently `Empty` — the coordinates
pushed by one iteration of the fill loop. -/
def emptyNbrs (g : GridC) (c : Coords2D) : List Coords2D :=
  (search_dirs.map (fun d => (⟨c.x + d.1, c.y + d.2⟩ : Coords2D))).filter
    (fun n => lookup g n.y n.x = some Cell.Empty)

/-- Number of `Empty` cells of the grid (within bounds). -/
def emptyCount (g : GridC) : Nat :=
  ((Finset.range g.rows ×ˢ Finset.range g.cols).filter
    (fun p => g.cell (p.1 : Int) (p.2 : Int) = Cell.Empty)).card

/-- Termination weight of the fill stack. -/
def stackWeight (g : GridC) (stack : List Coords2D) : Nat :=
  (stack.map (fun c => if lookup g c.y c.x = some Cell.Empty then 1 else 6)).sum

theorem setCell_rows (g : GridC) (y x : Int) (v : Cell) : (setCell g y x v).rows = g.rows := by
  rw [setCell]
  split <;> rfl

theorem setCell_cols (g : GridC) (y x : Int) (v : Cell) : (setCell g y x v).cols = g.cols := by
  rw [setCell]
  split <;> rfl

theorem cell_setCell_ne (g : GridC) {y x : Int} (v : Cell) {y' x' : Int}
    (h : ¬(y' = y ∧ x' = x)) : (setCell g y x v).cell y' x' = g.cell y' x' := by
  rw [setCell]
  split
  · simp only [if_neg h]
  · rfl

theorem cell_setCell_self (g : GridC) {y x : Int} (v : Cell)
    (hin : 0 ≤ y ∧ y < g.rows ∧ 0 ≤ x ∧ x < g.cols) :
    (setCell g y x v).cell y x = v := by
  rw [setCell, if_pos hin]
  show (if y = y ∧ x = x then v else g.cell y x) = v
  rw [if_pos ⟨rfl, rfl⟩]

theorem lookup_bounds {g : GridC} {y x : Int} {c : Cell}
    (h : lookup g y x = some c) :
    (0 ≤ y ∧ y < g.rows ∧ 0 ≤ x ∧ x < g.cols) ∧ g.cell y x = c := by
  rw [lookup] at h
  split at h
  · rename_i hb
    exact ⟨hb, by simpa using h⟩
  · simp at h

theorem lookup_of_cell {g : GridC} {y x : Int}
    (hb : 0 ≤ y ∧ y < g.rows ∧ 0 ≤ x ∧ x < g.cols) :
    lookup g y x = some (g.cell y x) := by
  rw [lookup, if_pos hb]

theorem lookup_setCell (g : GridC) (y x : Int) (v : Cell) (y' x' : Int) :
    lookup (setCell g y x v) y' x'
      = if (0 ≤ y ∧ y < g.rows ∧ 0 ≤ x ∧ x < g.cols) ∧ y' = y ∧ x' = x
        then some v else lookup g y' x' := by
  by_cases hin : 0 ≤ y ∧ y < g.rows ∧ 0 ≤ x ∧ x < g.cols
  · by_cases heq : y' = y ∧ x' = x
    · rw [if_pos ⟨hin, heq⟩]
      obtain ⟨rfl, rfl⟩ := heq
      rw [lookup]
      rw [if_pos (by rw [setCell_rows, setCell_cols]; exact hin)]
      rw [cell_setCell_self g v hin]
    · rw [if_neg (by tauto)]
      rw [lookup, lookup, setCell_rows, setCell_cols, cell_setCell_ne g v heq]
  · rw [if_neg (by tauto)]
    rw [setCell, if_neg hin]

/-- After painting a non-`Empty` cell green, emptiness of every cell is
unchanged. -/
theorem lookup_set_green_empty_iff (g : GridC) {y x : Int}
    (h : lookup g y x ≠ some Cell.Empty) (y' x' : Int) :
    (lookup (setCell g y x Cell.Green) y' x' = some Cell.Empty
      ↔ lookup g y' x' = some Cell.Empty) := by
  rw [lookup_setCell]
  split
  · rename_i hcond
    obtain ⟨hin, rfl, rfl⟩ := hcond
    rw [lookup_of_cell hin] at h ⊢
    simp only [Option.some.injEq]
    constructor
    · intro hGE
      cases hGE
    · intro hc
      exact absurd (by rw [hc]) h
  · exact Iff.rfl

/-- Painting an `Empty` cell green strictly decreases the number of `Empty`
cells. -/
theorem emptyCount_set_green_lt (g : GridC) {y x : Int}
    (h : lookup g y x = some Cell.Empty) :
    emptyCount (setCell g y x Cell.Green) < emptyCount g := by
  obtain ⟨hin, hcell⟩ := lookup_bounds h
  rw [emptyCount, emptyCount, setCell_rows, setCell_cols]
  apply Finset.card_lt_card
  constructor
  · intro p hp
    rw [Finset.mem_filter] at hp ⊢
    refine ⟨hp.1, ?_⟩
    have hp2 := hp.2
    by_cases heq : (p.1 : Int) = y ∧ (p.2 : Int) = x
    · rw [heq.1, heq.2, cell_setCell_self g Cell.Green hin] at hp2
      cases hp2
    · rw [cell_setCell_ne g Cell.Green heq] at hp2
      exact hp2
  · intro hsub
    have hyx : (y.toNat, x.toNat) ∈ (Finset.range g.rows ×ˢ Finset.range g.cols).filter
        (fun p => g.cell (p.1 : Int) (p.2 : Int) = Cell.Empty) := by
      rw [Finset.mem_filter, Finset.mem_product, Finset.mem_range, Finset.mem_range]
      have hy : (y.toNat : Int) = y := Int.toNat_of_nonneg hin.1
      have hx : (x.toNat : Int) = x := Int.toNat_of_nonneg hin.2.2.1
      refine ⟨⟨by omega, by omega⟩, ?_⟩
      simp only [hy, hx]
      exact hcell
    have h2 := hsub hyx
    rw [Finset.mem_filter] at h2
    have hy : (y.toNat : Int) = y := Int.toNat_of_nonneg hin.1
    have hx : (x.toNat : Int) = x := Int.toNat_of_nonneg hin.2.2.1
    have h3 := h2.2
    simp only [hy, hx] at h3
    rw [cell_setCell_self g Cell.Green hin] at h3
    cases h3

/-- Painting a non-`Empty` cell green leaves the number of `Empty` cells
unchanged. -/
theorem emptyCount_set_green_eq (g : GridC) {y x : Int}
    (h : lookup g y x ≠ some Cell.Empty) :
    emptyCount (setCell g y x Cell.Green) = emptyCount g := by
  rw [emptyCount, emptyCount, setCell_rows, setCell_cols]
  congr 1
  apply Finset.filter_congr
  intro p hp
  rw [Finset.mem_product, Finset.mem_range, Finset.mem_range] at hp
  have hb : 0 ≤ (p.1 : Int) ∧ (p.1 : Int) < g.rows ∧ 0 ≤ (p.2 : Int) ∧ (p.2 : Int) < g.cols := by
    constructor
    · positivity
    refine ⟨?_, ?_, ?_⟩
    · exact_mod_cast hp.1
    · positivity
    · exact_mod_cast hp.2
  have hb' : 0 ≤ (p.1 : Int) ∧ (p.1 : Int) < (setCell g y x Cell.Green).rows
      ∧ 0 ≤ (p.2 : Int) ∧ (p.2 : Int) < (setCell g y x Cell.Green).cols := by
    rw [setCell_rows, setCell_cols]
    exact hb
  have hiff := lookup_set_green_empty_iff g h (p.1 : Int) (p.2 : Int)
  rw [lookup_of_cell hb, lookup_of_cell hb'] at hiff
  simp only [Option.some.injEq] at hiff
  exact hiff

theorem stackWeight_congr {g g' : GridC}
    (h : ∀ y x, lookup g' y x = some Cell.Empty ↔ lookup g y x = some Cell.Empty)
    (stack : List Coords2D) : stackWeight g' stack = stackWeight g stack := by
  rw [stackWeight, stackWeight]
  congr 1
  apply List.map_congr_left
  intro c _
  by_cases hc : lookup g c.y c.x = some Cell.Empty
  · rw [if_pos hc, if_pos ((h c.y c.x).mpr hc)]
  · rw [if_neg hc, if_neg (fun hcon => hc ((h c.y c.x).mp hcon))]

theorem stackWeight_append (g : GridC) (s t : List Coords2D) :
    stackWeight g (s ++ t) = stackWeight g s + stackWeight g t := by
  rw [stackWeight, stackWeight, stackWeight, List.map_append, List.sum_append]

theorem stackWeight_emptyNbrs_le (g : GridC) (c : Coords2D) :
    stackWeight g ((emptyNbrs g c).reverse) ≤ 4 := by
  have hone : ∀ w ∈ ((emptyNbrs g c).reverse).map
      (fun d => if lookup g d.y d.x = some Cell.Empty then 1 else 6), w ≤ 1 := by
    intro w hw
    obtain ⟨d, hd, rfl⟩ := List.mem_map.mp hw
    rw [List.mem_reverse] at hd
    rw [emptyNbrs] at hd
    have := (List.mem_filter.mp hd).2
    simp only [decide_eq_true_eq] at this
    rw [if_pos this]
  have hlen : ((emptyNbrs g c).reverse).length ≤ 4 := by
    rw [List.length_reverse, emptyNbrs]
    calc ((search_dirs.map fun d => (⟨c.x + d.1, c.y + d.2⟩ : Coords2D)).filter
          (fun n => decide (lookup g n.y n.x = some Cell.Empty))).length
        ≤ (search_dirs.map fun d => (⟨c.x + d.1, c.y + d.2⟩ : Coords2D)).length :=
          List.length_filter_le _ _
      _ = 4 := by rw [List.length_map]; rfl
  rw [stackWeight]
  calc (((emptyNbrs g c).reverse).map
        (fun d => if lookup g d.y d.x = some Cell.Empty then 1 else 6)).sum
      ≤ (((emptyNbrs g c).reverse).map
        (fun d => if lookup g d.y d.x = some Cell.Empty then 1 else 6)).length * 1 := by
        have := List.sum_le_card_nsmul (((emptyNbrs g c).reverse).map
          (fun d => if lookup g d.y d.x = some Cell.Empty then 1 else 6)) 1 hone
        simpa using this
    _ ≤ 4 := by rw [List.length_map, Nat.mul_one]; exact hlen

/-- The push loop of `fill_green_tiles` computes exactly the reversed
`Empty`-neighbour list, prepended to the remaining stack. -/
theorem foldl_push_eq (g : GridC) (c : Coords2D) (rest : List Coords2D) :
    search_dirs.foldl (fun s d =>
        if lookup g (c.y + d.2) (c.x + d.1) = some Cell.Empty
        then (⟨c.x + d.1, c.y + d.2⟩ : Coords2D) :: s else s) rest
      = (emptyNbrs g c).reverse ++ rest := by
  have hgen : ∀ (L : List (Int × Int)) (s : List Coords2D),
      L.foldl (fun s d =>
        if lookup g (c.y + d.2) (c.x + d.1) = some Cell.Empty
        then (⟨c.x + d.1, c.y + d.2⟩ : Coords2D) :: s else s) s
      = (((L.map (fun d => (⟨c.x + d.1, c.y + d.2⟩ : Coords2D))).filter
          (fun n => lookup g n.y n.x = some Cell.Empty)).reverse) ++ s := by
    intro L
    induction L with
    | nil => intro s; simp
    | cons d L ih =>
      intro s
      rw [List.foldl_cons, List.map_cons]
      by_cases hd : lookup g (c.y + d.2) (c.x + d.1) = some Cell.Empty
      · rw [if_pos hd, ih, List.filter_cons_of_pos (by simpa using hd)]
        rw [List.reverse_cons, List.append_assoc, List.singleton_append]
      · rw [if_neg hd, ih, List.filter_cons_of_neg (by simpa using hd)]
  rw [hgen, emptyNbrs]

/-- The loop of `fill_green_tiles` from `src/bin/day09.rs` (lines 260-276):
pop a coordinate from the stack, paint it green, and push every neighbour
(in `search_dirs` order) whose cell is still `Empty`. -/
def fillAux (g : GridC) (stack : List Coords2D) : GridC :=
  match stack with
  | [] => g
  | coords :: rest =>
    fillAux (setCell g coords.y coords.x Cell.Green)
      (search_dirs.foldl (fun s d =>
        if lookup (setCell g coords.y coords.x Cell.Green) (coords.y + d.2) (coords.x + d.1)
            = some Cell.Empty
        then (⟨coords.x + d.1, coords.y + d.2⟩ : Coords2D) :: s else s) rest)
termination_by (emptyCount g, stackWeight g stack)
decreasing_by
  simp only [dite_eq_ite]
  rw [foldl_push_eq]
  by_cases hc : lookup g coords.y coords.x = some Cell.Empty
  · exact Prod.Lex.left _ _ (emptyCount_set_green_lt g hc)
  · rw [emptyCount_set_green_eq g hc]
    apply Prod.Lex.right
    have hiff := lookup_set_green_empty_iff g hc
    have hw1 : stackWeight (setCell g coords.y coords.x Cell.Green) rest
        = stackWeight g rest := stackWeight_congr hiff rest
    have hw2 := stackWeight_emptyNbrs_le (setCell g coords.y coords.x Cell.Green) coords
    have hw3 : stackWeight g (coords :: rest) = 6 + stackWeight g rest := by
      rw [stackWeight, stackWeight, List.map_cons, List.sum_cons, if_neg hc]
    rw [stackWeight_append, hw1, hw3]
    omega

/-- Rust `fill_green_tiles` from `src/bin/day09.rs`: asserts the start cell is
`Empty` (`none` models the `assert_eq!` panic) and runs the fill loop from a
stack holding only the start coordinate. -/
def fill_green_tiles (g : GridC) (start : Coords2D) : Option GridC :=
  if lookup g start.y start.x = some Cell.Empty then some (fillAux g [start])
  else none

/-- The 4-connected component of `Empty` cells of `g` containing `start`. -/
inductive Conn (g : GridC) (start : Coords2D) : Coords2D → Prop where
  | base : Conn g start start
  | step {c d : Coords2D} : Conn g start c →
      (∃ dir ∈ search_dirs, d = ⟨c.x + dir.1, c.y + dir.2⟩) →
      lookup g d.y d.x = some Cell.Empty → Conn g start d

theorem conn_lookup {g : GridC} {start : Coords2D}
    (hstart : lookup g start.y start.x = some Cell.Empty) {c : Coords2D}
    (hc : Conn g start c) : lookup g c.y c.x = some Cell.Empty := by
  cases hc with
  | base => exact hstart
  | step _ _ h => exact h

/-- Loop invariant of the flood fill, relative to the original grid `g₀`. -/
structure FillInv (g₀ : GridC) (start : Coords2D) (g : GridC)
    (stack : List Coords2D) : Prop where
  rows_eq : g.rows = g₀.rows
  cols_eq : g.cols = g₀.cols
  agree : ∀ c : Coords2D, g.cell c.y c.x = g₀.cell c.y c.x ∨
    (Conn g₀ start c ∧ g.cell c.y c.x = Cell.Green)
  stack_conn : ∀ c ∈ stack, Conn g₀ start c
  closure : ∀ c : Coords2D, Conn g₀ start c → g.cell c.y c.x = Cell.Green →
    ∀ d : Coords2D, (∃ dir ∈ search_dirs, d = ⟨c.x + dir.1, c.y + dir.2⟩) →
      lookup g d.y d.x = some Cell.Empty → d ∈ stack
  start_case : g.cell start.y start.x = Cell.Green ∨ start ∈ stack

theorem fill_inv_init {g₀ : GridC} {start : Coords2D}
    (hstart : lookup g₀ start.y start.x = some Cell.Empty) :
    FillInv g₀ start g₀ [start] := by
  refine ⟨rfl, rfl, ?_, ?_, ?_, ?_⟩
  · intro c
    exact Or.inl rfl
  · intro c hc
    rw [List.mem_singleton] at hc
    subst hc
    exact Conn.base
  · intro c hc hgreen d _ _
    have := (lookup_bounds (conn_lookup hstart hc)).2
    rw [hgreen] at this
    cases this
  · exact Or.inr (List.mem_singleton_self _)

/-- One iteration of the fill loop preserves the invariant. -/
theorem fill_inv_step {g₀ : GridC} {start : Coords2D}
    (hstart : lookup g₀ start.y start.x = some Cell.Empty)
    {g : GridC} {coords : Coords2D} {rest : List Coords2D}
    (hinv : FillInv g₀ start g (coords :: rest)) :
    FillInv g₀ start (setCell g coords.y coords.x Cell.Green)
      ((emptyNbrs (setCell g coords.y coords.x Cell.Green) coords).reverse ++ rest) := by
  obtain ⟨hrows, hcols, hagree, hstack, hclosure, hstartc⟩ := hinv
  have hconn_c : Conn g₀ start coords := hstack coords (List.mem_cons_self _ _)
  have hb0 := (lookup_bounds (conn_lookup hstart hconn_c)).1
  have hb : 0 ≤ coords.y ∧ coords.y < g.rows ∧ 0 ≤ coords.x ∧ coords.x < g.cols := by
    rw [hrows, hcols]
    exact hb0
  have hself : (setCell g coords.y coords.x Cell.Green).cell coords.y coords.x
      = Cell.Green := cell_setCell_self g Cell.Green hb
  have hlookup_ne : ∀ d : Coords2D, ¬(d.y = coords.y ∧ d.x = coords.x) →
      lookup (setCell g coords.y coords.x Cell.Green) d.y d.x = lookup g d.y d.x := by
    intro d hd
    rw [lookup_setCell, if_neg (by tauto)]
  have hpos_eq : ∀ d : Coords2D, (d.y = coords.y ∧ d.x = coords.x) → d = coords := by
    intro d hd
    cases d
    cases coords
    simp only [Coords2D.mk.injEq]
    simp only [] at hd
    exact ⟨hd.2, hd.1⟩
  have hmem_nbrs : ∀ d : Coords2D,
      d ∈ (emptyNbrs (setCell g coords.y coords.x Cell.Green) coords).reverse ↔
        ((∃ dir ∈ search_dirs, d = ⟨coords.x + dir.1, coords.y + dir.2⟩)
          ∧ lookup (setCell g coords.y coords.x Cell.Green) d.y d.x = some Cell.Empty) := by
    intro d
    rw [List.mem_reverse, emptyNbrs, List.mem_filter, List.mem_map]
    simp only [decide_eq_true_eq]
    constructor
    · rintro ⟨⟨dir, hdir, rfl⟩, h2⟩
      exact ⟨⟨dir, hdir, rfl⟩, h2⟩
    · rintro ⟨⟨dir, hdir, rfl⟩, h2⟩
      exact ⟨⟨dir, hdir, rfl⟩, h2⟩
  have hempty_no_coords : ∀ d : Coords2D,
      lookup (setCell g coords.y coords.x Cell.Green) d.y d.x = some Cell.Empty →
        ¬(d.y = coords.y ∧ d.x = coords.x) := by
    intro d hd hcon
    obtain ⟨h1, h2⟩ := hcon
    rw [h1, h2] at hd
    have := (lookup_bounds hd).2
    rw [hself] at this
    cases this
  have hg0_empty : ∀ d : Coords2D,
      lookup (setCell g coords.y coords.x Cell.Green) d.y d.x = some Cell.Empty →
        lookup g₀ d.y d.x = some Cell.Empty := by
    intro d hd
    have hne := hempty_no_coords d hd
    rw [hlookup_ne d hne] at hd
    obtain ⟨hbd, hcd⟩ := lookup_bounds hd
    rcases hagree d with h | h
    · rw [h] at hcd
      refine lookup_of_cell ?_ |>.trans (by rw [hcd])
      rw [← hrows, ← hcols]
      exact hbd
    · rw [h.2] at hcd
      cases hcd
  refine ⟨?_, ?_, ?_, ?_, ?_, ?_⟩
  · rw [setCell_rows]
    exact hrows
  · rw [setCell_cols]
    exact hcols
  · intro c
    by_cases hceq : c.y = coords.y ∧ c.x = coords.x
    · right
      have hc' := hpos_eq c hceq
      subst hc'
      exact ⟨hconn_c, cell_setCell_self g Cell.Green (by rw [← hceq.1, ← hceq.2] at hb; exact hb)⟩
    · rw [cell_setCell_ne g Cell.Green hceq]
      exact hagree c
  · intro d hd
    rcases List.mem_append.mp hd with h | h
    · obtain ⟨hadj, hemp⟩ := (hmem_nbrs d).mp h
      exact Conn.step hconn_c hadj (hg0_empty d hemp)
    · exact hstack d (List.mem_cons_of_mem _ h)
  · intro u hconn_u hu_green d hadj hd_empty
    by_cases hupos : u.y = coords.y ∧ u.x = coords.x
    · have hu' := hpos_eq u hupos
      subst hu'
      exact List.mem_append_left _ ((hmem_nbrs d).mpr ⟨hadj, hd_empty⟩)
    · rw [cell_setCell_ne g Cell.Green hupos] at hu_green
      have hdne := hempty_no_coords d hd_empty
      rw [hlookup_ne d hdne] at hd_empty
      have := hclosure u hconn_u hu_green d hadj hd_empty
      rcases List.mem_cons.mp this with rfl | h
      · exact absurd ⟨rfl, rfl⟩ hdne
      · exact List.mem_append_right _ h
  · rcases hstartc with h | h
    · left
      by_cases hs : start.y = coords.y ∧ start.x = coords.x
      · rw [hs.1, hs.2]
        exact hself
      · rw [cell_setCell_ne g Cell.Green hs]
        exact h
    · rcases List.mem_cons.mp h with rfl | h'
      · left
        exact hself
      · right
        exact List.mem_append_right _ h'

/-- Running the fill loop to completion preserves the invariant, ending with
an empty stack. -/
theorem fillAux_inv (g₀ : GridC) (start : Coords2D)
    (hstart : lookup g₀ start.y start.x = some Cell.Empty) :
    ∀ (g : GridC) (stack : List Coords2D), FillInv g₀ start g stack →
      FillInv g₀ start (fillAux g stack) [] := by
  refine fillAux.induct (fun g stack => FillInv g₀ start g stack →
    FillInv g₀ start (fillAux g stack) []) ?_ ?_
  · intro g hinv
    rw [fillAux]
    exact hinv
  · intro g coords rest ih hinv
    rw [fillAux]
    apply ih
    simp only [dite_eq_ite]
    rw [foldl_push_eq]
    exact fill_inv_step hstart hinv

/-- C9: `fill_green_tiles` terminates and paints green exactly the
4-connected component of `Empty` cells containing `start`; every other cell
is untouched — in particular, `Empty` cells of a disconnected interior
region stay `Empty` (the documented one-region limitation). -/
theorem fill_green_tiles_spec (g : GridC) (start : Coords2D)
    (hstart : lookup g start.y start.x = some Cell.Empty) :
    ∃ out, fill_green_tiles g start = some out
      ∧ out.rows = g.rows ∧ out.cols = g.cols
      ∧ (∀ c : Coords2D, Conn g start c → lookup out c.y c.x = some Cell.Green)
      ∧ (∀ c : Coords2D, ¬Conn g start c → out.cell c.y c.x = g.cell c.y c.x)
      ∧ (∀ c : Coords2D, lookup g c.y c.x = some Cell.Empty → ¬Conn g start c →
          lookup out c.y c.x = some Cell.Empty) := by
  have hfin := fillAux_inv g start hstart g [start] (fill_inv_init hstart)
  have hgreen : ∀ c : Coords2D, Conn g start c →
      (fillAux g [start]).cell c.y c.x = Cell.Green := by
    intro c hc
    induction hc with
    | base =>
      rcases hfin.start_case with h | h
      · exact h
      · simp at h
    | step hc' hadj hemp ih =>
      rename_i c' d
      rcases hfin.agree d with h | h
      · exfalso
        obtain ⟨hbd, hcd⟩ := lookup_bounds hemp
        have hlk : lookup (fillAux g [start]) d.y d.x = some Cell.Empty := by
          have hb' : 0 ≤ d.y ∧ d.y < (fillAux g [start]).rows
              ∧ 0 ≤ d.x ∧ d.x < (fillAux g [start]).cols := by
            rw [hfin.rows_eq, hfin.cols_eq]
            exact hbd
          rw [lookup_of_cell hb', h, hcd]
        have := hfin.closure c' hc' ih d hadj hlk
        simp at this
      · exact h.2
  refine ⟨fillAux g [start], by rw [fill_green_tiles, if_pos hstart], hfin.rows_eq,
    hfin.cols_eq, ?_, ?_, ?_⟩
  · intro c hc
    have hbc := (lookup_bounds (conn_lookup hstart hc)).1
    have hb' : 0 ≤ c.y ∧ c.y < (fillAux g [start]).rows
        ∧ 0 ≤ c.x ∧ c.x < (fillAux g [start]).cols := by
      rw [hfin.rows_eq, hfin.cols_eq]
      exact hbc
    rw [lookup_of_cell hb', hgreen c hc]
  · intro c hnc
    rcases hfin.agree c with h | h
    · exact h
    · exact absurd h.1 hnc
  · intro c he hnc
    obtain ⟨hbc, hcc⟩ := lookup_bounds he
    have hb' : 0 ≤ c.y ∧ c.y < (fillAux g [start]).rows
        ∧ 0 ≤ c.x ∧ c.x < (fillAux g [start]).cols := by
      rw [hfin.rows_eq, hfin.cols_eq]
      exact hbc
    rw [lookup_of_cell hb']
    rcases hfin.agree c with h | h
    · rw [h, hcc]
    · exact absurd h.1 hnc

/-- Witness for `fill_green_tiles_spec`: a 1×2 all-`Empty` grid filled from
its left cell. -/
theorem fill_green_tiles_spec_witness :
    lookup (⟨1, 2, fun _ _ => Cell.Empty⟩ : GridC) (0 : Int) (0 : Int) = some Cell.Empty
    ∧ ∃ out, fill_green_tiles ⟨1, 2, fun _ _ => Cell.Empty⟩ ⟨0, 0⟩ = some out
        ∧ lookup out (0 : Int) (0 : Int) = some Cell.Green := by
  have hstart : lookup (⟨1, 2, fun _ _ => Cell.Empty⟩ : GridC)
      (⟨0, 0⟩ : Coords2D).y (⟨0, 0⟩ : Coords2D).x = some Cell.Empty := by decide
  obtain ⟨out, hcode, _, _, hgreen, _, _⟩ :=
    fill_green_tiles_spec ⟨1, 2, fun _ _ => Cell.Empty⟩ ⟨0, 0⟩ hstart
  exact ⟨hstart, out, hcode, hgreen ⟨0, 0⟩ Conn.base⟩

end Day09

end Aoc
